import Mathlib

/-
Verification of the `imp` toy compiler (src/main.c).

The compiler core is shallowly embedded: the source buffer is a `List Char`
(the C buffer is NUL-terminated, so reading at or past the end yields the
sentinel character), the cursor is a record of row/col/point/line, the
procedure table is an arena (`List Procedure`) whose call lists hold indices
into the arena (the C code stores `Procedure*` pointers owned by the table;
pointer identity corresponds to arena index identity).  Fatal `error()` calls
(which `exit(1)` in C) are modelled as an error result that carries the
compiler state at the moment of the error.  The `while` loops of the lexer
run on explicit fuel; the parser loops likewise, and `parse` supplies fuel
that is proved sufficient (`none` never escapes, see `parse_total`).

Display-only data is kept where it influences nothing: the token history
(`token_history_add`) is modelled, the theme colors of `Face` are omitted
(only the `start`/`end` span of the face is kept, as `faceStart`/`faceEnd`).
-/

namespace Imp

/-- The NUL sentinel character terminating the C buffer. -/
def nulChar : Char := Char.ofNat 0

/-- C `isspace` in the default locale: space, \t, \n, \v, \f, \r. -/
def c_isspace (ch : Char) : Bool :=
  ch = ' ' || ch = '\t' || ch = '\n' || ch = Char.ofNat 11 || ch = Char.ofNat 12 || ch = '\r'

/-- C `isalpha` in the default locale. -/
def c_isalpha (ch : Char) : Bool :=
  ('a' ≤ ch && ch ≤ 'z') || ('A' ≤ ch && ch ≤ 'Z')

/-- C `isdigit`. -/
def c_isdigit (ch : Char) : Bool := '0' ≤ ch && ch ≤ '9'

/-- C `isalnum`. -/
def c_isalnum (ch : Char) : Bool := c_isalpha ch || c_isdigit ch

/-- Token kinds, from the `TokenType` enum of src/main.c. -/
inductive TokenType where
  | identifier
  | doubleColon
  | procKeyword
  | lparen
  | rparen
  | lbrace
  | rbrace
  | eofToken
deriving DecidableEq, Repr

/-- The `Cursor` struct: 1-based row/col, 0-based point, line counter. -/
structure Cursor where
  row : Nat
  col : Nat
  point : Nat
  line : Nat
deriving DecidableEq, Repr

/-- The `Token` struct.  `faceStart`/`faceEnd` are the byte span stored in the
`Face`; the theme colors of the face are display-only and omitted. -/
structure Token where
  type : TokenType
  lexeme : List Char
  row : Nat
  col : Nat
  line : Nat
  faceStart : Nat
  faceEnd : Nat
deriving DecidableEq, Repr

/-- One `Procedure` record of the arena.  `calls` holds arena indices: the C
code stores `Procedure*` pointers into the table, and pointer identity is
arena-index identity. -/
structure Procedure where
  name : List Char
  calls : List Nat
deriving DecidableEq, Repr, Inhabited

/-- The distinct fatal messages passed to `error()` in src/main.c.  The
first two are lexical (Expected second colon; Unexpected character), the
rest syntactic (Expected procedure name, Expected double colon, Expected
proc, Expected left paren, Expected right paren, Expected left brace,
Expected procedure call). -/
inductive ErrorKind where
  | expectedColonAfterColon
  | unexpectedCharacter
  | expectedProcedureName
  | expectedDoubleColon
  | expectedProcKeyword
  | expectedLParen
  | expectedRParen
  | expectedLBrace
  | expectedProcedureCall
deriving DecidableEq, Repr

/-- The data printed by `error()`: the cursor row/column at the moment of
the call, and which message was raised. -/
structure CompileError where
  row : Nat
  col : Nat
  kind : ErrorKind
deriving DecidableEq, Repr

/-- The `Compiler` struct (buffer + cursor + current token + procedure table
+ token history).  The output file handle is not state; code generation is
modelled as a pure function of the table. -/
structure Compiler where
  content : List Char
  cursor : Cursor
  currentToken : Token
  procedures : List Procedure
  history : List Token
deriving DecidableEq, Repr

/-- Result of a stateful compiler operation: success with the new state, or
a fatal `error()` carrying the message data and the state at that moment
(in C the process exits there). -/
inductive PResult where
  | ok : Compiler → PResult
  | err : CompileError → Compiler → PResult
deriving DecidableEq, Repr

/-- The compiler state inside a result (the state at exit, for both
outcomes). -/
def PResult.state : PResult → Compiler
  | .ok c => c
  | .err _ c => c

/-- Reading the buffer: the C buffer is NUL-terminated, so any read at or
past the end yields the sentinel. -/
def buf_get (content : List Char) (i : Nat) : Char := content.getD i nulChar

/-- `cursor_advance`: newline bumps row and line and resets col, any other
character bumps col; point always increments. -/
def cursor_advance (cursor : Cursor) (content : List Char) : Cursor :=
  if buf_get content cursor.point = '\n' then
    { row := cursor.row + 1, col := 1, point := cursor.point + 1, line := cursor.line + 1 }
  else
    { row := cursor.row, col := cursor.col + 1, point := cursor.point + 1, line := cursor.line }

/-- `cursor_peek`. -/
def cursor_peek (cursor : Cursor) (content : List Char) : Char := buf_get content cursor.point

/-- `cursor_is_at_end`: true iff the peeked character is the terminator. -/
def cursor_is_at_end (cursor : Cursor) (content : List Char) : Bool :=
  cursor_peek cursor content = nulChar

/-- `token_new` (colors omitted; the face span is kept). -/
def token_new (type : TokenType) (lexeme : List Char) (row col line startPos endPos : Nat) :
    Token :=
  { type := type, lexeme := lexeme, row := row, col := col, line := line,
    faceStart := startPos, faceEnd := endPos }

/-- Store a freshly produced token: assign `current_token` and
`token_history_add`. -/
def set_token (c : Compiler) (t : Token) : Compiler :=
  { c with currentToken := t, history := c.history ++ [t] }

/-- The whitespace-skipping loop at the top of `lex`, on fuel.  `lex` always
supplies fuel exceeding the remaining buffer length, which is proved
sufficient for the loop to reach a non-space character. -/
def skip_whitespace : Nat → Compiler → Compiler
  | 0, c => c
  | fuel + 1, c =>
    if c_isspace (cursor_peek c.cursor c.content) then
      skip_whitespace fuel { c with cursor := cursor_advance c.cursor c.content }
    else c

/-- The identifier-collecting loop of `lex` (maximal run of alphanumerics
and underscores), on fuel, with the accumulated lexeme.  The C code writes
into a fixed 256-byte buffer without a bound check; the collected run is
modelled unbounded. -/
def scan_identifier : Nat → Compiler → List Char → List Char × Compiler
  | 0, c, acc => (acc, c)
  | fuel + 1, c, acc =>
    let ch := cursor_peek c.cursor c.content
    if c_isalnum ch || ch = '_' then
      scan_identifier fuel { c with cursor := cursor_advance c.cursor c.content } (acc ++ [ch])
    else (acc, c)

/-- `lex`: skip whitespace, emit an end-of-input token at the end of the
buffer, otherwise classify by the first character (identifier/keyword run,
double colon, single punctuation), advancing the cursor past the token.
Errors carry the cursor position at the moment of the `error()` call. -/
def lex (c0 : Compiler) : PResult :=
  let c := skip_whitespace (c0.content.length + 1) c0
  if cursor_is_at_end c.cursor c.content then
    .ok (set_token c
      (token_new .eofToken [] c.cursor.row c.cursor.col c.cursor.line c.cursor.point
        c.cursor.point))
  else
    let startRow := c.cursor.row
    let startCol := c.cursor.col
    let startLine := c.cursor.line
    let startPos := c.cursor.point
    let ch := cursor_peek c.cursor c.content
    if c_isalpha ch || ch = '_' then
      let scanned := scan_identifier (c.content.length + 1) c []
      let lexeme := scanned.1
      let c1 := scanned.2
      if lexeme = "proc".data then
        .ok (set_token c1
          (token_new .procKeyword lexeme startRow startCol startLine startPos c1.cursor.point))
      else
        .ok (set_token c1
          (token_new .identifier lexeme startRow startCol startLine startPos c1.cursor.point))
    else if ch = ':' then
      let c1 := { c with cursor := cursor_advance c.cursor c.content }
      if cursor_peek c1.cursor c1.content = ':' then
        let c2 := { c1 with cursor := cursor_advance c1.cursor c1.content }
        .ok (set_token c2
          (token_new .doubleColon "::".data startRow startCol startLine startPos c2.cursor.point))
      else
        .err { row := c1.cursor.row, col := c1.cursor.col, kind := .expectedColonAfterColon } c1
    else if ch = '(' then
      let c1 := { c with cursor := cursor_advance c.cursor c.content }
      .ok (set_token c1
        (token_new .lparen "(".data startRow startCol startLine startPos c1.cursor.point))
    else if ch = ')' then
      let c1 := { c with cursor := cursor_advance c.cursor c.content }
      .ok (set_token c1
        (token_new .rparen ")".data startRow startCol startLine startPos c1.cursor.point))
    else if ch = '{' then
      let c1 := { c with cursor := cursor_advance c.cursor c.content }
      .ok (set_token c1
        (token_new .lbrace "\x7b".data startRow startCol startLine startPos c1.cursor.point))
    else if ch = '}' then
      let c1 := { c with cursor := cursor_advance c.cursor c.content }
      .ok (set_token c1
        (token_new .rbrace "\x7d".data startRow startCol startLine startPos c1.cursor.point))
    else
      .err { row := c.cursor.row, col := c.cursor.col, kind := .unexpectedCharacter } c

/-- `find_procedure`'s linear scan, tracking the index of the first entry
whose name matches. -/
def find_procedure_from : List Procedure → List Char → Nat → Option Nat
  | [], _, _ => none
  | p :: rest, n, i => if p.name = n then some i else find_procedure_from rest n (i + 1)

/-- `find_procedure`: first arena index whose entry bears the name, if any. -/
def find_procedure (procs : List Procedure) (n : List Char) : Option Nat :=
  find_procedure_from procs n 0

/-- The find-or-create registration inlined twice in `parse_procedure`
(lines 352-364 for the declared name; lines 404-415 for a call target):
reuse the existing entry, else append a fresh zero-calls entry.  Returns
the entry index and the (possibly grown) table; the capacity-doubling
reallocation is a representation detail with no observable effect. -/
def find_or_create (procs : List Procedure) (n : List Char) : Nat × List Procedure :=
  match find_procedure procs n with
  | some i => (i, procs)
  | none => (procs.length, procs ++ [{ name := n, calls := [] }])

/-- `proc->num_calls = 0`: reset the call list of entry `i`. -/
def clear_calls (procs : List Procedure) (i : Nat) : List Procedure :=
  match procs[i]? with
  | some p => procs.set i { p with calls := [] }
  | none => procs

/-- `procedure_add_call`: append a callee reference (arena index) to the
call list of entry `i`. -/
def procedure_add_call (procs : List Procedure) (i callee : Nat) : List Procedure :=
  match procs[i]? with
  | some p => procs.set i { p with calls := p.calls ++ [callee] }
  | none => procs

/-- The state right after the registration and call-recording of a body
identifier (lines 404-417: find-or-create the callee entry, then
`procedure_add_call`); cursor, token and history are untouched. -/
def register_call (c : Compiler) (procIdx : Nat) : Compiler :=
  { c with procedures :=
      (procedure_add_call (find_or_create c.procedures c.currentToken.lexeme).2 procIdx
        (find_or_create c.procedures c.currentToken.lexeme).1) }

/-- The state right after the registration of a declaration name
(lines 352-364: find-or-create the entry for the current identifier). -/
def register_decl (c : Compiler) : Compiler :=
  { c with procedures := (find_or_create c.procedures c.currentToken.lexeme).2 }

/-- One `if (c->current_token.type != tt) error(c, msg); lex(c);` step —
the pattern `parse_procedure` repeats for `::`, `proc`, `(`, `)`, `{`
and the call loop repeats for `(` and `)`.  The error carries the cursor
position at the moment of the `error()` call. -/
def expect_then_lex (tt : TokenType) (k : ErrorKind) (c : Compiler) : PResult :=
  if c.currentToken.type ≠ tt then
    .err { row := c.cursor.row, col := c.cursor.col, kind := k } c
  else lex c

/-- Sequencing under fatal errors: in C a fatal `error()` exits the
process, so a later step runs only when the earlier one succeeded. -/
def PResult.andThen (r : PResult) (f : Compiler → PResult) : PResult :=
  match r with
  | .ok c => f c
  | .err e s => .err e s

/-- One iteration of the call-list loop (lines 399-429): require an
identifier, find-or-create its entry and record the call edge, consume
the identifier, then require and consume `(` and `)`. -/
def parse_call (procIdx : Nat) (c : Compiler) : PResult :=
  if c.currentToken.type ≠ .identifier then
    .err { row := c.cursor.row, col := c.cursor.col, kind := .expectedProcedureCall } c
  else
    (lex (register_call c procIdx)).andThen fun c2 =>
    (expect_then_lex .lparen .expectedLParen c2).andThen fun c3 =>
    expect_then_lex .rparen .expectedRParen c3

/-- The call-list loop of `parse_procedure` (lines 398-430): iterate
`parse_call` until the current token is `}`.  `procIdx` is the declared
procedure's arena index; fuel bounds the iteration count and is proved
sufficient. -/
def parse_body : Nat → Nat → Compiler → Option PResult
  | 0, _, _ => none
  | fuel + 1, procIdx, c =>
    if c.currentToken.type = .rbrace then some (.ok c)
    else
      match parse_call procIdx c with
      | .err e s => some (.err e s)
      | .ok c4 => parse_body fuel procIdx c4

/-- The declaration-header sequence of `parse_procedure` (lines 352-393):
register the declared name, consume it, then require and consume `::`,
`proc`, `(`, `)`, `{` in strict order. -/
def parse_header (c : Compiler) : PResult :=
  (lex (register_decl c)).andThen fun c1 =>
  (expect_then_lex .doubleColon .expectedDoubleColon c1).andThen fun c2 =>
  (expect_then_lex .procKeyword .expectedProcKeyword c2).andThen fun c3 =>
  (expect_then_lex .lparen .expectedLParen c3).andThen fun c4 =>
  (expect_then_lex .rparen .expectedRParen c4).andThen fun c5 =>
  expect_then_lex .lbrace .expectedLBrace c5

/-- `parse_procedure`: require an identifier (registering it immediately
via find-or-create, before any header validation), run the header checks,
reset the registered entry's call list (line 396), parse the body calls,
and consume the closing `}`. -/
def parse_procedure (fuel : Nat) (c : Compiler) : Option PResult :=
  if c.currentToken.type ≠ .identifier then
    some (.err { row := c.cursor.row, col := c.cursor.col, kind := .expectedProcedureName } c)
  else
    let procIdx := (find_or_create c.procedures c.currentToken.lexeme).1
    match parse_header c with
    | .err e s => some (.err e s)
    | .ok c6 =>
      match parse_body fuel procIdx
          { c6 with procedures := clear_calls c6.procedures procIdx } with
      | none => none
      | some (.err e s) => some (.err e s)
      | some (.ok c8) =>
        match lex c8 with
        | .err e s => some (.err e s)
        | .ok c9 => some (.ok c9)

/-- The declaration loop of `parse` (lines 438-440), on fuel.  `bodyFuel`
is the fuel handed to each `parse_procedure`. -/
def parse_loop : Nat → Nat → Compiler → Option PResult
  | 0, _, _ => none
  | fuel + 1, bodyFuel, c =>
    if c.currentToken.type = .eofToken then some (.ok c)
    else
      match parse_procedure bodyFuel c with
      | none => none
      | some (.err e s) => some (.err e s)
      | some (.ok c') => parse_loop fuel bodyFuel c'

/-- Placeholder for the C `current_token` field, which `compiler_new`
leaves uninitialized; it is overwritten by the first `lex` before any
use. -/
def initial_token : Token := token_new .eofToken [] 1 1 0 0 0

/-- `compiler_new`: fresh cursor at row 1 / col 1 / point 0, empty
procedure table, empty history. -/
def compiler_new (source : List Char) : Compiler :=
  { content := source,
    cursor := { row := 1, col := 1, point := 0, line := 0 },
    currentToken := initial_token,
    procedures := [],
    history := [] }

/-- Entry into the declaration loop from the result of the first `lex`
(a lexical error in the first token is fatal before any declaration). -/
def parse_start (fuel : Nat) (r : PResult) : Option PResult :=
  match r with
  | .err e s => some (.err e s)
  | .ok c1 => parse_loop fuel fuel c1

/-- `parse`: lex the first token, then parse declarations until
end-of-input.  The fuel `length + 2` is proved sufficient
(`parse_total`): every successful loop iteration strictly advances the
cursor point, which never exceeds the buffer length. -/
def parse (c : Compiler) : Option PResult :=
  parse_start (c.content.length + 2) (lex c)

/-- The name of arena entry `j`, as dereferencing `proc->calls[j]->name`
does (an out-of-range index would be a wild pointer in C; it never occurs,
see the call-list well-formedness invariant). -/
def proc_name_at (procs : List Procedure) (j : Nat) : List Char :=
  (procs.getD j default).name

/-- `generate_code` as the byte sequence written to output.asm: header,
one block per table entry in order (label, prologue, one call per call-list
entry, epilogue), then the fixed `_start` block.  Opening the output file
is an environment interaction and is not modelled. -/
def generate_code (procs : List Procedure) : List Char :=
  "global _start\n\nsection .text\n\n".data ++
  (procs.map (fun p =>
    p.name ++ ":\n    push rbp\n    mov rbp, rsp\n".data ++
    (p.calls.map (fun j => "    call ".data ++ proc_name_at procs j ++ "\n".data)).flatten ++
    "    mov rsp, rbp\n    pop rbp\n    ret\n\n".data)).flatten ++
  "_start:\n    call main\n    mov rax, 60\n    xor rdi, rdi\n    syscall\n".data

/-- The non-step pipeline of `main`: parse, then generate code only when
parsing succeeded (a fatal parse error exits before `generate_code`). -/
def compile (source : List Char) : Option (Except CompileError (List Char)) :=
  match parse (compiler_new source) with
  | none => none
  | some (.ok c) => some (.ok (generate_code c.procedures))
  | some (.err e _) => some (.error e)

/-! ### Basic facts about the buffer and the character classes -/

theorem buf_get_default {content : List Char} {i : Nat} (h : content.length ≤ i) :
    buf_get content i = nulChar :=
  List.getD_eq_default content nulChar h

theorem lt_length_of_buf_get_ne_nul {content : List Char} {i : Nat}
    (h : buf_get content i ≠ nulChar) : i < content.length := by
  by_contra hlt
  exact h (buf_get_default (Nat.le_of_not_lt hlt))

theorem c_isspace_nul : c_isspace nulChar = false := by decide

theorem c_isalnum_or_underscore_nul : (c_isalnum nulChar || nulChar = '_') = false := by decide

theorem c_isalpha_or_underscore_nul : (c_isalpha nulChar || nulChar = '_') = false := by decide

theorem alnum_of_alpha {ch : Char} (h : (c_isalpha ch || ch = '_') = true) :
    (c_isalnum ch || ch = '_') = true := by
  rcases Bool.or_eq_true_iff.1 h with h1 | h1
  · exact Bool.or_eq_true_iff.2 (Or.inl (by simp [c_isalnum, h1]))
  · exact Bool.or_eq_true_iff.2 (Or.inr h1)

theorem cursor_advance_point (cur : Cursor) (content : List Char) :
    (cursor_advance cur content).point = cur.point + 1 := by
  unfold cursor_advance
  split <;> rfl

/-! ### The whitespace-skipping loop -/

theorem skip_whitespace_fields (f : Nat) (c : Compiler) :
    (skip_whitespace f c).content = c.content ∧
    (skip_whitespace f c).procedures = c.procedures ∧
    (skip_whitespace f c).history = c.history ∧
    (skip_whitespace f c).currentToken = c.currentToken := by
  induction f generalizing c with
  | zero => exact ⟨rfl, rfl, rfl, rfl⟩
  | succ n ih =>
    unfold skip_whitespace
    split
    · exact ih _
    · exact ⟨rfl, rfl, rfl, rfl⟩

theorem skip_whitespace_point_ge (f : Nat) (c : Compiler) :
    c.cursor.point ≤ (skip_whitespace f c).cursor.point := by
  induction f generalizing c with
  | zero => exact Nat.le_refl _
  | succ n ih =>
    unfold skip_whitespace
    split
    · refine Nat.le_trans ?_ (ih _)
      simp [cursor_advance_point]
    · exact Nat.le_refl _

theorem skip_whitespace_point_le (f : Nat) (c : Compiler)
    (h : c.cursor.point ≤ c.content.length) :
    (skip_whitespace f c).cursor.point ≤ c.content.length := by
  induction f generalizing c with
  | zero => exact h
  | succ n ih =>
    unfold skip_whitespace
    split
    · rename_i hsp
      have hne : cursor_peek c.cursor c.content ≠ nulChar := by
        intro hz
        rw [hz] at hsp
        simp [c_isspace_nul] at hsp
      have hlt : c.cursor.point < c.content.length := lt_length_of_buf_get_ne_nul hne
      have := ih { c with cursor := cursor_advance c.cursor c.content }
      simp only [cursor_advance_point] at this
      exact this (Nat.succ_le_of_lt hlt)
    · exact h

theorem skip_whitespace_of_not_space {c : Compiler}
    (h : c_isspace (cursor_peek c.cursor c.content) = false) (f : Nat) :
    skip_whitespace f c = c := by
  cases f with
  | zero => rfl
  | succ n =>
    unfold skip_whitespace
    simp [h]

/-! ### The identifier-scanning loop -/

theorem scan_identifier_fields (f : Nat) (c : Compiler) (acc : List Char) :
    (scan_identifier f c acc).2.content = c.content ∧
    (scan_identifier f c acc).2.procedures = c.procedures ∧
    (scan_identifier f c acc).2.history = c.history ∧
    (scan_identifier f c acc).2.currentToken = c.currentToken := by
  induction f generalizing c acc with
  | zero => exact ⟨rfl, rfl, rfl, rfl⟩
  | succ n ih =>
    simp only [scan_identifier]
    split
    · exact ih _ _
    · exact ⟨rfl, rfl, rfl, rfl⟩

theorem scan_identifier_point_ge (f : Nat) (c : Compiler) (acc : List Char) :
    c.cursor.point ≤ (scan_identifier f c acc).2.cursor.point := by
  induction f generalizing c acc with
  | zero => exact Nat.le_refl _
  | succ n ih =>
    simp only [scan_identifier]
    split
    · refine Nat.le_trans ?_ (ih _ _)
      simp [cursor_advance_point]
    · exact Nat.le_refl _

theorem scan_identifier_point_le (f : Nat) (c : Compiler) (acc : List Char)
    (h : c.cursor.point ≤ c.content.length) :
    (scan_identifier f c acc).2.cursor.point ≤ c.content.length := by
  induction f generalizing c acc with
  | zero => exact h
  | succ n ih =>
    simp only [scan_identifier]
    split
    · rename_i hid
      have hne : cursor_peek c.cursor c.content ≠ nulChar := by
        intro hz
        rw [hz] at hid
        simp [c_isalnum_or_underscore_nul] at hid
      have hlt : c.cursor.point < c.content.length := lt_length_of_buf_get_ne_nul hne
      have := ih { c with cursor := cursor_advance c.cursor c.content }
        (acc ++ [cursor_peek c.cursor c.content])
      simp only [cursor_advance_point] at this
      exact this (Nat.succ_le_of_lt hlt)
    · exact h

theorem scan_identifier_point_strict (f : Nat) (c : Compiler) (acc : List Char)
    (hf : 1 ≤ f)
    (h : (c_isalnum (cursor_peek c.cursor c.content) ||
          cursor_peek c.cursor c.content = '_') = true) :
    c.cursor.point < (scan_identifier f c acc).2.cursor.point := by
  cases f with
  | zero => exact absurd hf (by decide)
  | succ n =>
    simp only [scan_identifier, h, if_pos]
    have := scan_identifier_point_ge n
      { c with cursor := cursor_advance c.cursor c.content } (acc ++ [cursor_peek c.cursor c.content])
    simp only [cursor_advance_point] at this
    exact Nat.lt_of_lt_of_le (Nat.lt_succ_self _) this

theorem scan_identifier_lexeme (f : Nat) (c : Compiler) (acc : List Char) :
    ∃ tail, (scan_identifier f c acc).1 = acc ++ tail ∧
      ∀ ch ∈ tail, (c_isalnum ch || ch = '_') = true := by
  induction f generalizing c acc with
  | zero => exact ⟨[], by simp [scan_identifier], by simp⟩
  | succ n ih =>
    simp only [scan_identifier]
    split
    · rename_i hid
      obtain ⟨tail, h1, h2⟩ := ih { c with cursor := cursor_advance c.cursor c.content }
        (acc ++ [cursor_peek c.cursor c.content])
      refine ⟨cursor_peek c.cursor c.content :: tail, ?_, ?_⟩
      · simpa using h1
      · intro ch hch
        rcases List.mem_cons.1 hch with rfl | hch
        · exact hid
        · exact h2 ch hch
    · exact ⟨[], by simp, by simp⟩

theorem scan_identifier_lexeme_ne (f : Nat) (c : Compiler) (acc : List Char)
    (hf : 1 ≤ f)
    (h : (c_isalnum (cursor_peek c.cursor c.content) ||
          cursor_peek c.cursor c.content = '_') = true) :
    ∃ tail, (scan_identifier f c acc).1 = acc ++ tail ∧ tail ≠ [] ∧
      ∀ ch ∈ tail, (c_isalnum ch || ch = '_') = true := by
  cases f with
  | zero => exact absurd hf (by decide)
  | succ n =>
    simp only [scan_identifier, h, if_pos]
    obtain ⟨tail, h1, h2⟩ := scan_identifier_lexeme n
      { c with cursor := cursor_advance c.cursor c.content } (acc ++ [cursor_peek c.cursor c.content])
    refine ⟨cursor_peek c.cursor c.content :: tail, by simpa using h1, by simp, ?_⟩
    intro ch hch
    rcases List.mem_cons.1 hch with rfl | hch
    · exact h
    · exact h2 ch hch

/-! ### Specification of `lex` -/

/-- Identifier lexemes as the lexer produces them: a nonempty run of
alphanumerics/underscores. -/
def valid_ident (n : List Char) : Prop :=
  n ≠ [] ∧ ∀ ch ∈ n, (c_isalnum ch || ch = '_') = true

instance (n : List Char) : Decidable (valid_ident n) := by
  unfold valid_ident
  infer_instance

@[simp] theorem set_token_content (c : Compiler) (t : Token) :
    (set_token c t).content = c.content := rfl

@[simp] theorem set_token_cursor (c : Compiler) (t : Token) :
    (set_token c t).cursor = c.cursor := rfl

@[simp] theorem set_token_procedures (c : Compiler) (t : Token) :
    (set_token c t).procedures = c.procedures := rfl

@[simp] theorem set_token_currentToken (c : Compiler) (t : Token) :
    (set_token c t).currentToken = t := rfl

@[simp] theorem set_token_history (c : Compiler) (t : Token) :
    (set_token c t).history = c.history ++ [t] := rfl

/-- Everything the development needs about a successful `lex` step: the
buffer and table are untouched, the new token is appended to the history
and installed as current, the cursor only moves forward and stays within
the buffer, a non-end-of-input token strictly advances the cursor point,
identifier tokens carry nonempty alphanumeric/underscore lexemes, and an
end-of-input token has an empty lexeme with the cursor resting on the
terminator. -/
theorem lex_ok_spec {c0 c' : Compiler} (h : lex c0 = .ok c') :
    c'.content = c0.content ∧
    c'.procedures = c0.procedures ∧
    c'.history = c0.history ++ [c'.currentToken] ∧
    c0.cursor.point ≤ c'.cursor.point ∧
    (c0.cursor.point ≤ c0.content.length → c'.cursor.point ≤ c0.content.length) ∧
    (c'.currentToken.type ≠ .eofToken → c0.cursor.point < c'.cursor.point) ∧
    (c'.currentToken.type = .identifier → valid_ident c'.currentToken.lexeme) ∧
    (c'.currentToken.type = .eofToken →
      c'.currentToken.lexeme = [] ∧ cursor_is_at_end c'.cursor c'.content = true ∧
      c'.currentToken.row = c'.cursor.row ∧ c'.currentToken.col = c'.cursor.col) := by
  simp only [lex] at h
  generalize hcw : skip_whitespace (c0.content.length + 1) c0 = cw at h
  obtain ⟨hwc, hwp, hwh, hwt⟩ := skip_whitespace_fields (c0.content.length + 1) c0
  rw [hcw] at hwc hwp hwh hwt
  have hwpt : c0.cursor.point ≤ cw.cursor.point := by
    have := skip_whitespace_point_ge (c0.content.length + 1) c0
    rwa [hcw] at this
  have hwle : c0.cursor.point ≤ c0.content.length → cw.cursor.point ≤ c0.content.length := by
    intro hle
    have := skip_whitespace_point_le (c0.content.length + 1) c0 hle
    rwa [hcw] at this
  split at h
  · -- end of input
    rename_i hend
    cases h
    refine ⟨by simp [hwc], by simp [hwp], by simp [hwh], by simpa using hwpt,
      fun hle => by simpa using hwle hle, fun hne => absurd rfl hne,
      fun hid => by simp [token_new] at hid, fun _ => ⟨rfl, ?_, rfl, rfl⟩⟩
    simpa [hwc] using hend
  · rename_i hend
    split at h
    · -- identifier / keyword
      rename_i hal
      generalize hscan : scan_identifier (cw.content.length + 1) cw [] = scanned at h
      obtain ⟨hsc, hsp, hsh, hst⟩ := scan_identifier_fields (cw.content.length + 1) cw []
      rw [hscan] at hsc hsp hsh hst
      have hspt : cw.cursor.point < scanned.2.cursor.point := by
        have := scan_identifier_point_strict (cw.content.length + 1) cw []
          (by omega) (alnum_of_alpha hal)
        rwa [hscan] at this
      have hsle : cw.cursor.point ≤ cw.content.length →
          scanned.2.cursor.point ≤ cw.content.length := by
        intro hle
        have := scan_identifier_point_le (cw.content.length + 1) cw [] hle
        rwa [hscan] at this
      have hlex : scanned.1 ≠ [] ∧ ∀ ch ∈ scanned.1, (c_isalnum ch || ch = '_') = true := by
        obtain ⟨tail, h1, h2, h3⟩ := scan_identifier_lexeme_ne (cw.content.length + 1) cw []
          (by omega) (alnum_of_alpha hal)
        rw [hscan] at h1
        simp only [List.nil_append] at h1
        exact ⟨h1 ▸ h2, h1 ▸ h3⟩
      split at h
      · -- keyword `proc`
        cases h
        refine ⟨by simp [hsc, hwc], by simp [hsp, hwp], by simp [hsh, hwh],
          by simp; omega, fun hle => by
            have h1 : cw.cursor.point ≤ cw.content.length := by rw [hwc]; exact hwle hle
            simp [← hwc]
            exact hsle h1,
          fun _ => by simp; omega, fun hid => by simp [token_new] at hid,
          fun heof => by simp [token_new] at heof⟩
      · -- plain identifier
        cases h
        refine ⟨by simp [hsc, hwc], by simp [hsp, hwp], by simp [hsh, hwh],
          by simp; omega, fun hle => by
            have h1 : cw.cursor.point ≤ cw.content.length := by rw [hwc]; exact hwle hle
            simp [← hwc]
            exact hsle h1,
          fun _ => by simp; omega, fun _ => by simpa [token_new, valid_ident] using hlex,
          fun heof => by simp [token_new] at heof⟩
    · rename_i hal
      split at h
      · -- double colon
        rename_i hcol
        split at h
        · rename_i hcol2
          cases h
          have hlt1 : cw.cursor.point < cw.content.length := by
            apply lt_length_of_buf_get_ne_nul
            rw [show buf_get cw.content cw.cursor.point = cursor_peek cw.cursor cw.content
              from rfl, hcol]
            decide
          have hlt2 : cw.cursor.point + 1 < cw.content.length := by
            apply lt_length_of_buf_get_ne_nul
            have : buf_get cw.content (cursor_advance cw.cursor cw.content).point =
                cursor_peek (cursor_advance cw.cursor cw.content) cw.content := rfl
            rw [cursor_advance_point] at this
            rw [this, hcol2]
            decide
          refine ⟨by simp [hwc], by simp [hwp], by simp [hwh],
            by simp [cursor_advance_point]; omega,
            fun hle => by simp [cursor_advance_point, ← hwc]; omega,
            fun _ => by simp [cursor_advance_point]; omega,
            fun hid => by simp [token_new] at hid,
            fun heof => by simp [token_new] at heof⟩
        · exact PResult.noConfusion h
      · split at h
        · -- left paren
          rename_i hch
          cases h
          have hlt1 : cw.cursor.point < cw.content.length := by
            apply lt_length_of_buf_get_ne_nul
            rw [show buf_get cw.content cw.cursor.point = cursor_peek cw.cursor cw.content
              from rfl, hch]
            decide
          refine ⟨by simp [hwc], by simp [hwp], by simp [hwh],
            by simp [cursor_advance_point]; omega,
            fun hle => by simp [cursor_advance_point, ← hwc]; omega,
            fun _ => by simp [cursor_advance_point]; omega,
            fun hid => by simp [token_new] at hid,
            fun heof => by simp [token_new] at heof⟩
        · split at h
          · -- right paren
            rename_i hch
            cases h
            have hlt1 : cw.cursor.point < cw.content.length := by
              apply lt_length_of_buf_get_ne_nul
              rw [show buf_get cw.content cw.cursor.point = cursor_peek cw.cursor cw.content
                from rfl, hch]
              decide
            refine ⟨by simp [hwc], by simp [hwp], by simp [hwh],
              by simp [cursor_advance_point]; omega,
              fun hle => by simp [cursor_advance_point, ← hwc]; omega,
              fun _ => by simp [cursor_advance_point]; omega,
              fun hid => by simp [token_new] at hid,
              fun heof => by simp [token_new] at heof⟩
          · split at h
            · -- left brace
              rename_i hch
              cases h
              have hlt1 : cw.cursor.point < cw.content.length := by
                apply lt_length_of_buf_get_ne_nul
                rw [show buf_get cw.content cw.cursor.point = cursor_peek cw.cursor cw.content
                  from rfl, hch]
                decide
              refine ⟨by simp [hwc], by simp [hwp], by simp [hwh],
                by simp [cursor_advance_point]; omega,
                fun hle => by simp [cursor_advance_point, ← hwc]; omega,
                fun _ => by simp [cursor_advance_point]; omega,
                fun hid => by simp [token_new] at hid,
                fun heof => by simp [token_new] at heof⟩
            · split at h
              · -- right brace
                rename_i hch
                cases h
                have hlt1 : cw.cursor.point < cw.content.length := by
                  apply lt_length_of_buf_get_ne_nul
                  rw [show buf_get cw.content cw.cursor.point = cursor_peek cw.cursor cw.content
                    from rfl, hch]
                  decide
                refine ⟨by simp [hwc], by simp [hwp], by simp [hwh],
                  by simp [cursor_advance_point]; omega,
                  fun hle => by simp [cursor_advance_point, ← hwc]; omega,
                  fun _ => by simp [cursor_advance_point]; omega,
                  fun hid => by simp [token_new] at hid,
                  fun heof => by simp [token_new] at heof⟩
              · exact PResult.noConfusion h

/-- A failing `lex` step (lexical error) leaves the buffer, table and
history untouched, and the carried state stays inside the buffer. -/
theorem lex_err_spec {c0 s : Compiler} {e : CompileError} (h : lex c0 = .err e s) :
    s.content = c0.content ∧
    s.procedures = c0.procedures ∧
    s.history = c0.history ∧
    (c0.cursor.point ≤ c0.content.length → s.cursor.point ≤ c0.content.length) := by
  simp only [lex] at h
  generalize hcw : skip_whitespace (c0.content.length + 1) c0 = cw at h
  obtain ⟨hwc, hwp, hwh, hwt⟩ := skip_whitespace_fields (c0.content.length + 1) c0
  rw [hcw] at hwc hwp hwh hwt
  have hwle : c0.cursor.point ≤ c0.content.length → cw.cursor.point ≤ c0.content.length := by
    intro hle
    have := skip_whitespace_point_le (c0.content.length + 1) c0 hle
    rwa [hcw] at this
  split at h
  · exact PResult.noConfusion h
  · split at h
    · generalize hscan : scan_identifier (cw.content.length + 1) cw [] = scanned at h
      split at h <;> exact PResult.noConfusion h
    · split at h
      · rename_i hcol
        split at h
        · exact PResult.noConfusion h
        · cases h
          refine ⟨hwc, hwp, hwh, fun hle => ?_⟩
          have hlt1 : cw.cursor.point < cw.content.length := by
            apply lt_length_of_buf_get_ne_nul
            rw [show buf_get cw.content cw.cursor.point = cursor_peek cw.cursor cw.content
              from rfl, hcol]
            decide
          simp only [cursor_advance_point]
          rw [← hwc]
          omega
      · split at h
        · exact PResult.noConfusion h
        · split at h
          · exact PResult.noConfusion h
          · split at h
            · exact PResult.noConfusion h
            · split at h
              · exact PResult.noConfusion h
              · cases h
                exact ⟨hwc, hwp, hwh, hwle⟩

/-- `lex` from a state resting on the terminator: the whitespace loop does
not move (the terminator is not whitespace) and an end-of-input token is
produced at the current position, the cursor unchanged. -/
theorem lex_at_end {c : Compiler} (h : cursor_is_at_end c.cursor c.content = true) :
    lex c = .ok (set_token c
      (token_new .eofToken [] c.cursor.row c.cursor.col c.cursor.line c.cursor.point
        c.cursor.point)) := by
  have hpk : cursor_peek c.cursor c.content = nulChar := by
    simpa [cursor_is_at_end] using h
  have hsw : skip_whitespace (c.content.length + 1) c = c :=
    skip_whitespace_of_not_space (by rw [hpk]; exact c_isspace_nul) _
  simp only [lex, hsw, h, if_pos]

/-! ### Lemmas about the procedure-table operations -/

/-- The table names, in arena order. -/
def names_of (procs : List Procedure) : List (List Char) := procs.map Procedure.name

theorem find_procedure_from_some {procs : List Procedure} {n : List Char} {base i : Nat}
    (h : find_procedure_from procs n base = some i) :
    base ≤ i ∧ i - base < procs.length ∧
      ∃ p, procs[i - base]? = some p ∧ p.name = n := by
  induction procs generalizing base with
  | nil => exact absurd h (by simp [find_procedure_from])
  | cons p rest ih =>
    unfold find_procedure_from at h
    split at h
    · rename_i hp
      cases h
      exact ⟨Nat.le_refl _, by simp, p, by simp, hp⟩
    · obtain ⟨h1, h2, q, h3, h4⟩ := ih h
      have hbase : base < i := Nat.lt_of_succ_le h1
      refine ⟨Nat.le_of_lt hbase, by simp; omega, q, ?_, h4⟩
      have : i - base = (i - (base + 1)) + 1 := by omega
      rw [this]
      simpa using h3

theorem find_procedure_from_none {procs : List Procedure} {n : List Char} {base : Nat}
    (h : find_procedure_from procs n base = none) : n ∉ names_of procs := by
  induction procs generalizing base with
  | nil => simp [names_of]
  | cons p rest ih =>
    unfold find_procedure_from at h
    split at h
    · exact absurd h (by simp)
    · rename_i hp
      intro hmem
      rcases by simpa [names_of] using hmem with h1 | h1
      · exact hp h1.symm
      · exact ih h (by simpa [names_of] using h1)

theorem find_procedure_some {procs : List Procedure} {n : List Char} {i : Nat}
    (h : find_procedure procs n = some i) :
    i < procs.length ∧ ∃ p, procs[i]? = some p ∧ p.name = n := by
  obtain ⟨h1, h2, p, h3, h4⟩ := find_procedure_from_some h
  simpa using ⟨h2, p, h3, h4⟩

theorem find_procedure_none {procs : List Procedure} {n : List Char}
    (h : find_procedure procs n = none) : n ∉ names_of procs :=
  find_procedure_from_none h

/-- Under distinct names, any entry bearing the searched name is the found
one: lookups by the same name always reach the same arena entry. -/
theorem find_procedure_unique {procs : List Procedure} {n : List Char} {i : Nat}
    (hnd : (names_of procs).Nodup)
    (h : find_procedure procs n = some i) :
    ∀ j p, procs[j]? = some p → p.name = n → j = i := by
  intro j p hj hpn
  obtain ⟨hi, q, hq, hqn⟩ := find_procedure_some h
  have hjl : j < procs.length := by
    by_contra hge
    rw [List.getElem?_eq_none (Nat.le_of_not_lt hge)] at hj
    exact Option.noConfusion hj
  have h1 : (names_of procs)[j]? = some n := by
    simp [names_of, List.getElem?_map, hj, hpn]
  have h2 : (names_of procs)[i]? = some n := by
    simp [names_of, List.getElem?_map, hq, hqn]
  exact List.getElem?_inj (by simpa [names_of] using hjl) hnd (h1.trans h2.symm)

/-- Case analysis of the registration step: either the name is present and
the table is unchanged, or a fresh zero-calls entry is appended. -/
theorem find_or_create_cases (procs : List Procedure) (n : List Char) :
    (∃ p, (find_or_create procs n).2 = procs ∧
      procs[(find_or_create procs n).1]? = some p ∧ p.name = n ∧
      (find_or_create procs n).1 < procs.length) ∨
    ((find_or_create procs n).2 = procs ++ [{ name := n, calls := [] }] ∧
      (find_or_create procs n).1 = procs.length ∧ n ∉ names_of procs) := by
  unfold find_or_create
  cases hf : find_procedure procs n with
  | some i =>
    obtain ⟨hi, p, hp, hpn⟩ := find_procedure_some hf
    exact Or.inl ⟨p, rfl, hp, hpn, hi⟩
  | none =>
    exact Or.inr ⟨rfl, rfl, find_procedure_none hf⟩

theorem find_or_create_length (procs : List Procedure) (n : List Char) :
    procs.length ≤ (find_or_create procs n).2.length ∧
    (find_or_create procs n).1 < (find_or_create procs n).2.length := by
  rcases find_or_create_cases procs n with ⟨p, h1, _, _, h4⟩ | ⟨h1, h2, _⟩
  · rw [h1]
    exact ⟨Nat.le_refl _, h4⟩
  · rw [h1, h2]
    simp

theorem find_or_create_entry (procs : List Procedure) (n : List Char) :
    ∃ p, (find_or_create procs n).2[(find_or_create procs n).1]? = some p ∧ p.name = n := by
  rcases find_or_create_cases procs n with ⟨p, h1, h2, h3, _⟩ | ⟨h1, h2, _⟩
  · refine ⟨p, ?_, h3⟩
    rw [h1]
    exact h2
  · refine ⟨{ name := n, calls := [] }, ?_, rfl⟩
    rw [h1, h2, List.getElem?_append_right (Nat.le_refl _)]
    simp

theorem find_or_create_preserves (procs : List Procedure) (n : List Char) {j : Nat}
    (hj : j < procs.length) : (find_or_create procs n).2[j]? = procs[j]? := by
  rcases find_or_create_cases procs n with ⟨p, h1, _, _, _⟩ | ⟨h1, _, _⟩
  · rw [h1]
  · rw [h1, List.getElem?_append]
    simp [hj]

theorem find_or_create_names (procs : List Procedure) (n : List Char) (x : List Char) :
    x ∈ names_of (find_or_create procs n).2 ↔ x ∈ names_of procs ∨ x = n := by
  rcases find_or_create_cases procs n with ⟨p, h1, h2, h3, _⟩ | ⟨h1, _, _⟩
  · rw [h1]
    constructor
    · exact Or.inl
    · rintro (hx | rfl)
      · exact hx
      · have hp : p ∈ procs := List.getElem?_mem h2
        exact h3 ▸ List.mem_map_of_mem Procedure.name hp
  · rw [h1]
    simp [names_of]

theorem find_or_create_nodup {procs : List Procedure} {n : List Char}
    (hnd : (names_of procs).Nodup) : (names_of (find_or_create procs n).2).Nodup := by
  rcases find_or_create_cases procs n with ⟨p, h1, _, _, _⟩ | ⟨h1, _, h3⟩
  · rw [h1]
    exact hnd
  · rw [h1]
    simp only [names_of, List.map_append, List.map_cons, List.map_nil]
    rw [List.nodup_append]
    exact ⟨hnd, List.nodup_singleton _, by simpa [names_of, List.Disjoint] using h3⟩

theorem find_or_create_valid {procs : List Procedure} {n : List Char}
    (hv : ∀ p ∈ procs, valid_ident p.name) (hn : valid_ident n) :
    ∀ p ∈ (find_or_create procs n).2, valid_ident p.name := by
  rcases find_or_create_cases procs n with ⟨p, h1, _, _, _⟩ | ⟨h1, _, _⟩
  · rw [h1]
    exact hv
  · rw [h1]
    intro p hp
    rcases List.mem_append.1 hp with hp | hp
    · exact hv p hp
    · rcases List.mem_singleton.1 hp with rfl
      exact hn

theorem clear_calls_length (procs : List Procedure) (i : Nat) :
    (clear_calls procs i).length = procs.length := by
  unfold clear_calls
  split <;> simp

theorem clear_calls_at (procs : List Procedure) {i : Nat} {p : Procedure}
    (h : procs[i]? = some p) :
    (clear_calls procs i)[i]? = some { p with calls := [] } := by
  unfold clear_calls
  rw [h]
  have hi : i < procs.length := by
    by_contra hge
    rw [List.getElem?_eq_none (Nat.le_of_not_lt hge)] at h
    exact Option.noConfusion h
  exact List.getElem?_set_self (by simpa using hi)

theorem clear_calls_other (procs : List Procedure) {i j : Nat} (h : i ≠ j) :
    (clear_calls procs i)[j]? = procs[j]? := by
  unfold clear_calls
  split
  · exact List.getElem?_set_ne h
  · rfl

theorem clear_calls_names (procs : List Procedure) (i : Nat) :
    names_of (clear_calls procs i) = names_of procs := by
  unfold clear_calls
  split
  · rename_i p hp
    simp only [names_of, List.map_set]
    apply List.ext_getElem?
    intro j
    by_cases hij : j = i
    · subst hij
      have hi : j < procs.length := by
        by_contra hge
        rw [List.getElem?_eq_none (Nat.le_of_not_lt hge)] at hp
        exact Option.noConfusion hp
      rw [List.getElem?_set_self (by simpa using hi)]
      simp [List.getElem?_map, hp]
    · exact List.getElem?_set_ne (fun he => hij he.symm)
  · rfl

theorem procedure_add_call_length (procs : List Procedure) (i k : Nat) :
    (procedure_add_call procs i k).length = procs.length := by
  unfold procedure_add_call
  split <;> simp

theorem procedure_add_call_at (procs : List Procedure) {i : Nat} (k : Nat) {p : Procedure}
    (h : procs[i]? = some p) :
    (procedure_add_call procs i k)[i]? = some { p with calls := p.calls ++ [k] } := by
  unfold procedure_add_call
  rw [h]
  have hi : i < procs.length := by
    by_contra hge
    rw [List.getElem?_eq_none (Nat.le_of_not_lt hge)] at h
    exact Option.noConfusion h
  exact List.getElem?_set_self (by simpa using hi)

theorem procedure_add_call_other (procs : List Procedure) {i j : Nat} (k : Nat) (h : i ≠ j) :
    (procedure_add_call procs i k)[j]? = procs[j]? := by
  unfold procedure_add_call
  split
  · exact List.getElem?_set_ne h
  · rfl

theorem procedure_add_call_names (procs : List Procedure) (i k : Nat) :
    names_of (procedure_add_call procs i k) = names_of procs := by
  unfold procedure_add_call
  split
  · rename_i p hp
    simp only [names_of, List.map_set]
    apply List.ext_getElem?
    intro j
    by_cases hij : j = i
    · subst hij
      have hi : j < procs.length := by
        by_contra hge
        rw [List.getElem?_eq_none (Nat.le_of_not_lt hge)] at hp
        exact Option.noConfusion hp
      rw [List.getElem?_set_self (by simpa using hi)]
      simp [List.getElem?_map, hp]
    · exact List.getElem?_set_ne (fun he => hij he.symm)
  · rfl

/-! ### Declaration names and call targets read off the token stream

In the grammar of src/main.c an identifier token can only be followed by
`::` (it is then the subject of a declaration) or by `(` (it is then a
call target).  The two extractors below therefore recover, from the token
history of a completed parse, exactly the identifiers that appear in the
source as declared names respectively call targets. -/

/-- Consecutive pairs of a list. -/
def list_pairs : List α → List (α × α)
  | [] => []
  | [_] => []
  | a :: b :: rest => (a, b) :: list_pairs (b :: rest)

/-- A declaration subject: an identifier token immediately followed by a
`::` token. -/
def decl_pair (ab : Token × Token) : Option (List Char) :=
  if ab.1.type = .identifier ∧ ab.2.type = .doubleColon then some ab.1.lexeme else none

/-- A call target: an identifier token immediately followed by a `(`
token. -/
def call_pair (ab : Token × Token) : Option (List Char) :=
  if ab.1.type = .identifier ∧ ab.2.type = .lparen then some ab.1.lexeme else none

/-- The identifiers declared in a token stream, in order of occurrence. -/
def declared_idents (h : List Token) : List (List Char) :=
  (list_pairs h).filterMap decl_pair

/-- The identifiers appearing as call targets in a token stream, in order
of occurrence. -/
def call_idents (h : List Token) : List (List Char) :=
  (list_pairs h).filterMap call_pair

theorem list_pairs_concat (h : List α) (b : α) :
    list_pairs (h ++ [b]) =
      list_pairs h ++ (match h.getLast? with | some a => [(a, b)] | none => []) := by
  induction h with
  | nil => rfl
  | cons a t ih =>
    cases t with
    | nil => rfl
    | cons b' rest =>
      show (a, b') :: list_pairs ((b' :: rest) ++ [b]) = _
      rw [ih]
      rfl

theorem declared_idents_concat (h : List Token) (b : Token) :
    declared_idents (h ++ [b]) =
      declared_idents h ++
        (match h.getLast? with | some a => (decl_pair (a, b)).toList | none => []) := by
  unfold declared_idents
  rw [list_pairs_concat, List.filterMap_append]
  congr 1
  cases h.getLast? with
  | none => rfl
  | some a =>
    cases hd : decl_pair (a, b) <;> simp [List.filterMap, hd]

theorem call_idents_concat (h : List Token) (b : Token) :
    call_idents (h ++ [b]) =
      call_idents h ++
        (match h.getLast? with | some a => (call_pair (a, b)).toList | none => []) := by
  unfold call_idents
  rw [list_pairs_concat, List.filterMap_append]
  congr 1
  cases h.getLast? with
  | none => rfl
  | some a =>
    cases hd : call_pair (a, b) <;> simp [List.filterMap, hd]

/-- After any successful `lex`, the current token is the last history
entry. -/
theorem lex_histCur {c c' : Compiler} (h : lex c = .ok c') :
    c'.history.getLast? = some c'.currentToken := by
  obtain ⟨_, _, hh, _⟩ := lex_ok_spec h
  rw [hh]
  exact List.getLast?_concat _

/-- Adjacency evolution across one successful `lex`, when the previous
current token is the last history entry. -/
theorem declared_idents_lex {c c' : Compiler} (h : lex c = .ok c')
    (hl : c.history.getLast? = some c.currentToken) :
    declared_idents c'.history =
      declared_idents c.history ++ (decl_pair (c.currentToken, c'.currentToken)).toList := by
  obtain ⟨_, _, hh, _⟩ := lex_ok_spec h
  rw [hh, declared_idents_concat, hl]

theorem call_idents_lex {c c' : Compiler} (h : lex c = .ok c')
    (hl : c.history.getLast? = some c.currentToken) :
    call_idents c'.history =
      call_idents c.history ++ (call_pair (c.currentToken, c'.currentToken)).toList := by
  obtain ⟨_, _, hh, _⟩ := lex_ok_spec h
  rw [hh, call_idents_concat, hl]

/-! ### Stepping lemmas for the parser loops -/

/-- What any single lexer-driven step preserves: the buffer, the table,
and the in-bounds cursor. -/
def StepPres (c : Compiler) (r : PResult) : Prop :=
  r.state.content = c.content ∧ r.state.procedures = c.procedures ∧
  (c.cursor.point ≤ c.content.length → r.state.cursor.point ≤ c.content.length)

theorem lex_pres {c : Compiler} {r : PResult} (h : lex c = r) : StepPres c r := by
  cases r with
  | ok c' =>
    obtain ⟨h1, h2, _, _, h5, _, _, _⟩ := lex_ok_spec h
    exact ⟨h1, h2, h5⟩
  | err e s =>
    obtain ⟨h1, h2, _, h4⟩ := lex_err_spec h
    exact ⟨h1, h2, h4⟩

theorem expect_pres {tt : TokenType} {k : ErrorKind} {c : Compiler} {r : PResult}
    (h : expect_then_lex tt k c = r) : StepPres c r := by
  unfold expect_then_lex at h
  split at h
  · cases h
    exact ⟨rfl, rfl, id⟩
  · exact lex_pres h

theorem StepPres.compose {c c2 : Compiler} {r : PResult}
    (h1 : StepPres c (.ok c2)) (h2 : StepPres c2 r) : StepPres c r := by
  obtain ⟨a1, a2, a3⟩ := h1
  simp only [PResult.state] at a1 a2 a3
  obtain ⟨b1, b2, b3⟩ := h2
  refine ⟨b1.trans a1, b2.trans a2, fun hle => ?_⟩
  have := b3 (by rw [a1]; exact a3 hle)
  rwa [a1] at this

theorem andThen_pres {r1 r : PResult} {f : Compiler → PResult} {c : Compiler}
    (h : r1.andThen f = r) (h1 : StepPres c r1)
    (h2 : ∀ c2, r1 = .ok c2 → StepPres c2 (f c2)) : StepPres c r := by
  cases r1 with
  | ok c2 =>
    simp only [PResult.andThen] at h
    exact h1.compose (h ▸ h2 c2 rfl)
  | err e s =>
    simp only [PResult.andThen] at h
    cases h
    exact h1

theorem andThen_ok {r : PResult} {f : Compiler → PResult} {c' : Compiler}
    (h : r.andThen f = .ok c') : ∃ c1, r = .ok c1 ∧ f c1 = .ok c' := by
  cases r with
  | ok c1 =>
    simp only [PResult.andThen] at h
    exact ⟨c1, rfl, h⟩
  | err e s =>
    simp only [PResult.andThen] at h
    exact PResult.noConfusion h

theorem expect_then_lex_ok {tt : TokenType} {k : ErrorKind} {c c' : Compiler}
    (h : expect_then_lex tt k c = .ok c') :
    c.currentToken.type = tt ∧ lex c = .ok c' := by
  unfold expect_then_lex at h
  split at h
  · exact PResult.noConfusion h
  · rename_i hc
    rw [Decidable.not_not] at hc
    exact ⟨hc, h⟩

/-- Every state along the declaration-header chain carries the table
produced by the registration of the declared name. -/
theorem parse_header_pres {c : Compiler} {r : PResult} (h : parse_header c = r) :
    StepPres (register_decl c) r := by
  unfold parse_header at h
  refine andThen_pres h (lex_pres rfl) fun c1 h1 => ?_
  refine andThen_pres rfl (expect_pres rfl) fun c2 h2 => ?_
  refine andThen_pres rfl (expect_pres rfl) fun c3 h3 => ?_
  refine andThen_pres rfl (expect_pres rfl) fun c4 h4 => ?_
  refine andThen_pres rfl (expect_pres rfl) fun c5 h5 => ?_
  exact expect_pres rfl

/-- Decomposition of a successful declaration header. -/
theorem parse_header_ok {c c6 : Compiler} (h : parse_header c = .ok c6) :
    ∃ c1 c2 c3 c4 c5,
      lex (register_decl c) = .ok c1 ∧ c1.currentToken.type = .doubleColon ∧
      lex c1 = .ok c2 ∧ c2.currentToken.type = .procKeyword ∧
      lex c2 = .ok c3 ∧ c3.currentToken.type = .lparen ∧
      lex c3 = .ok c4 ∧ c4.currentToken.type = .rparen ∧
      lex c4 = .ok c5 ∧ c5.currentToken.type = .lbrace ∧
      lex c5 = .ok c6 := by
  unfold parse_header at h
  obtain ⟨c1, h1, h⟩ := andThen_ok h
  obtain ⟨c2, h2, h⟩ := andThen_ok h
  obtain ⟨c3, h3, h⟩ := andThen_ok h
  obtain ⟨c4, h4, h⟩ := andThen_ok h
  obtain ⟨c5, h5, h⟩ := andThen_ok h
  obtain ⟨t2, l2⟩ := expect_then_lex_ok h2
  obtain ⟨t3, l3⟩ := expect_then_lex_ok h3
  obtain ⟨t4, l4⟩ := expect_then_lex_ok h4
  obtain ⟨t5, l5⟩ := expect_then_lex_ok h5
  obtain ⟨t6, l6⟩ := expect_then_lex_ok h
  exact ⟨c1, c2, c3, c4, c5, h1, t2, l2, t3, l3, t4, l4, t5, l5, t6, l6⟩

/-- Every state along a call-loop iteration carries either the original
table (the identifier check failed) or the table produced by the
registration plus call recording. -/
theorem parse_call_pres {procIdx : Nat} {c : Compiler} {r : PResult}
    (h : parse_call procIdx c = r) :
    StepPres c r ∨ StepPres (register_call c procIdx) r := by
  unfold parse_call at h
  split at h
  · cases h
    exact Or.inl ⟨rfl, rfl, id⟩
  · refine Or.inr ?_
    refine andThen_pres h (lex_pres rfl) fun c2 h2 => ?_
    refine andThen_pres rfl (expect_pres rfl) fun c3 h3 => ?_
    exact expect_pres rfl

/-- Decomposition of a successful call-loop iteration. -/
theorem parse_call_ok {procIdx : Nat} {c c4 : Compiler}
    (h : parse_call procIdx c = .ok c4) :
    c.currentToken.type = .identifier ∧
    ∃ c2 c3,
      lex (register_call c procIdx) = .ok c2 ∧ c2.currentToken.type = .lparen ∧
      lex c2 = .ok c3 ∧ c3.currentToken.type = .rparen ∧
      lex c3 = .ok c4 := by
  unfold parse_call at h
  split at h
  · exact PResult.noConfusion h
  · rename_i hid
    rw [Decidable.not_not] at hid
    obtain ⟨c2, h2, h⟩ := andThen_ok h
    obtain ⟨c3, h3, h⟩ := andThen_ok h
    obtain ⟨t3, l3⟩ := expect_then_lex_ok h3
    obtain ⟨t4, l4⟩ := expect_then_lex_ok h
    exact ⟨hid, c2, c3, h2, t3, l3, t4, l4⟩

theorem register_decl_names (c : Compiler) (x : List Char) :
    x ∈ names_of (register_decl c).procedures ↔
      x ∈ names_of c.procedures ∨ x = c.currentToken.lexeme := by
  simp only [register_decl]
  exact find_or_create_names _ _ x

theorem register_decl_mem (c : Compiler) :
    c.currentToken.lexeme ∈ names_of (register_decl c).procedures :=
  (register_decl_names c _).2 (Or.inr rfl)

theorem register_decl_nodup {c : Compiler} (h : (names_of c.procedures).Nodup) :
    (names_of (register_decl c).procedures).Nodup := by
  simp only [register_decl]
  exact find_or_create_nodup h

theorem register_call_names (c : Compiler) (procIdx : Nat) (x : List Char) :
    x ∈ names_of (register_call c procIdx).procedures ↔
      x ∈ names_of c.procedures ∨ x = c.currentToken.lexeme := by
  simp only [register_call]
  rw [procedure_add_call_names]
  exact find_or_create_names _ _ x

theorem register_call_nodup {c : Compiler} {procIdx : Nat}
    (h : (names_of c.procedures).Nodup) :
    (names_of (register_call c procIdx).procedures).Nodup := by
  simp only [register_call]
  rw [procedure_add_call_names]
  exact find_or_create_nodup h

/-- Monotonicity facts about the call-list loop that need no precondition:
the buffer is untouched, table entries are never removed (names only
grow), and name distinctness is preserved — on the error path as well. -/
theorem parse_body_names : ∀ (fuel procIdx : Nat) (c : Compiler) (r : PResult),
    parse_body fuel procIdx c = some r →
    r.state.content = c.content ∧
    (∀ x ∈ names_of c.procedures, x ∈ names_of r.state.procedures) ∧
    ((names_of c.procedures).Nodup → (names_of r.state.procedures).Nodup) := by
  intro fuel
  induction fuel with
  | zero =>
    intro i c r h
    exact absurd h (by simp [parse_body])
  | succ n ih =>
    intro i c r h
    rw [parse_body] at h
    split at h
    · cases h
      exact ⟨rfl, fun x hx => hx, id⟩
    · split at h
      · rename_i e s heq
        cases h
        simp only [PResult.state]
        rcases parse_call_pres heq with ⟨p1, p2, _⟩ | ⟨p1, p2, _⟩ <;>
          simp only [PResult.state] at p1 p2
        · exact ⟨p1, fun x hx => by rw [p2]; exact hx, fun hnd => by rw [p2]; exact hnd⟩
        · refine ⟨p1, fun x hx => ?_, fun hnd => ?_⟩
          · rw [p2]
            exact (register_call_names c i x).2 (Or.inl hx)
          · rw [p2]
            exact register_call_nodup hnd
      · rename_i c4 heq
        obtain ⟨ih1, ih2, ih3⟩ := ih i c4 r h
        rcases parse_call_pres heq with ⟨p1, p2, _⟩ | ⟨p1, p2, _⟩ <;>
          simp only [PResult.state] at p1 p2
        · refine ⟨ih1.trans p1, fun x hx => ih2 x ?_, fun hnd => ih3 ?_⟩
          · rw [p2]
            exact hx
          · rw [p2]
            exact hnd
        · refine ⟨ih1.trans p1, fun x hx => ih2 x ?_, fun hnd => ih3 ?_⟩
          · rw [p2]
            exact (register_call_names c i x).2 (Or.inl hx)
          · rw [p2]
            exact register_call_nodup hnd

/-- Monotonicity and registration facts about `parse_procedure` that need
no precondition.  The last conjunct is the early-registration property:
whatever the outcome, once the declaration's name token was an identifier,
the name is in the table of the final state — also when a later header
check fails. -/
theorem parse_procedure_names {fuel : Nat} {c : Compiler} {r : PResult}
    (h : parse_procedure fuel c = some r) :
    r.state.content = c.content ∧
    (∀ x ∈ names_of c.procedures, x ∈ names_of r.state.procedures) ∧
    ((names_of c.procedures).Nodup → (names_of r.state.procedures).Nodup) ∧
    (c.currentToken.type = .identifier →
      c.currentToken.lexeme ∈ names_of r.state.procedures) := by
  rw [parse_procedure] at h
  split at h
  · rename_i hid
    cases h
    exact ⟨rfl, fun x hx => hx, id, fun hty => absurd hty hid⟩
  · rename_i hid
    rw [Decidable.not_not] at hid
    simp only [] at h
    split at h
    · rename_i e s hph
      cases h
      simp only [PResult.state]
      obtain ⟨p1, p2, _⟩ := parse_header_pres hph
      simp only [PResult.state] at p1 p2
      refine ⟨p1, fun x hx => ?_, fun hnd => ?_, fun _ => ?_⟩
      · rw [p2]
        exact (register_decl_names c x).2 (Or.inl hx)
      · rw [p2]
        exact register_decl_nodup hnd
      · rw [p2]
        exact register_decl_mem c
    · rename_i c6 hph
      obtain ⟨p1, p2, _⟩ := parse_header_pres hph
      simp only [PResult.state] at p1 p2
      have hc6names : ∀ x ∈ names_of (register_decl c).procedures,
          x ∈ names_of (clear_calls c6.procedures
            (find_or_create c.procedures c.currentToken.lexeme).1) := by
        intro x hx
        rw [clear_calls_names, p2]
        exact hx
      have hc6nodup : (names_of (register_decl c).procedures).Nodup →
          (names_of (clear_calls c6.procedures
            (find_or_create c.procedures c.currentToken.lexeme).1)).Nodup := by
        intro hnd
        rw [clear_calls_names, p2]
        exact hnd
      split at h
      · exact Option.noConfusion h
      · rename_i e s hpb
        cases h
        simp only [PResult.state]
        obtain ⟨b1, b2, b3⟩ := parse_body_names _ _ _ _ hpb
        simp only [PResult.state] at b1 b2 b3
        refine ⟨b1.trans p1, fun x hx => ?_, fun hnd => ?_, fun _ => ?_⟩
        · exact b2 x (hc6names x ((register_decl_names c x).2 (Or.inl hx)))
        · exact b3 (hc6nodup (register_decl_nodup hnd))
        · exact b2 _ (hc6names _ (register_decl_mem c))
      · rename_i c8 hpb
        obtain ⟨b1, b2, b3⟩ := parse_body_names _ _ _ _ hpb
        simp only [PResult.state] at b1 b2 b3
        split at h
        · rename_i e s hlex
          cases h
          simp only [PResult.state]
          obtain ⟨l1, l2, _, _⟩ := lex_err_spec hlex
          refine ⟨(l1.trans b1).trans p1, fun x hx => ?_, fun hnd => ?_, fun _ => ?_⟩
          · rw [l2]
            exact b2 x (hc6names x ((register_decl_names c x).2 (Or.inl hx)))
          · rw [l2]
            exact b3 (hc6nodup (register_decl_nodup hnd))
          · rw [l2]
            exact b2 _ (hc6names _ (register_decl_mem c))
        · rename_i c9 hlex
          cases h
          simp only [PResult.state]
          obtain ⟨l1, l2, _, _, _, _, _, _⟩ := lex_ok_spec hlex
          refine ⟨(l1.trans b1).trans p1, fun x hx => ?_, fun hnd => ?_, fun _ => ?_⟩
          · rw [l2]
            exact b2 x (hc6names x ((register_decl_names c x).2 (Or.inl hx)))
          · rw [l2]
            exact b3 (hc6nodup (register_decl_nodup hnd))
          · rw [l2]
            exact b2 _ (hc6names _ (register_decl_mem c))

/-- Monotonicity facts about the declaration loop. -/
theorem parse_loop_names : ∀ (fuel bodyFuel : Nat) (c : Compiler) (r : PResult),
    parse_loop fuel bodyFuel c = some r →
    r.state.content = c.content ∧
    (∀ x ∈ names_of c.procedures, x ∈ names_of r.state.procedures) ∧
    ((names_of c.procedures).Nodup → (names_of r.state.procedures).Nodup) := by
  intro fuel
  induction fuel with
  | zero =>
    intro bf c r h
    exact absurd h (by simp [parse_loop])
  | succ n ih =>
    intro bf c r h
    rw [parse_loop] at h
    split at h
    · cases h
      exact ⟨rfl, fun x hx => hx, id⟩
    · split at h
      · exact Option.noConfusion h
      · rename_i e s hpp
        cases h
        obtain ⟨p1, p2, p3, _⟩ := parse_procedure_names hpp
        exact ⟨p1, p2, p3⟩
      · rename_i c' hpp
        obtain ⟨p1, p2, p3, _⟩ := parse_procedure_names hpp
        simp only [PResult.state] at p1 p2 p3
        obtain ⟨ih1, ih2, ih3⟩ := ih bf c' r h
        exact ⟨ih1.trans p1, fun x hx => ih2 x (p2 x hx), fun hnd => ih3 (p3 hnd)⟩

/-- The state entering the call-list loop: the table entry of the declared
procedure has just had its call list reset (line 396). -/
def clear_state (c6 : Compiler) (procIdx : Nat) : Compiler :=
  { c6 with procedures := clear_calls c6.procedures procIdx }

/-- Decomposition of a successful `parse_procedure`. -/
theorem parse_procedure_ok {fuel : Nat} {c c' : Compiler}
    (h : parse_procedure fuel c = some (.ok c')) :
    c.currentToken.type = .identifier ∧
    ∃ c6 c8,
      parse_header c = .ok c6 ∧
      parse_body fuel (find_or_create c.procedures c.currentToken.lexeme).1
        (clear_state c6 (find_or_create c.procedures c.currentToken.lexeme).1) =
          some (.ok c8) ∧
      lex c8 = .ok c' := by
  rw [parse_procedure] at h
  split at h
  · rename_i hid
    injection h with h2
    exact PResult.noConfusion h2
  · rename_i hid
    rw [Decidable.not_not] at hid
    simp only [] at h
    split at h
    · rename_i e s hph
      injection h with h2
      exact PResult.noConfusion h2
    · rename_i c6 hph
      split at h
      · exact Option.noConfusion h
      · rename_i e s hpb
        injection h with h2
        exact PResult.noConfusion h2
      · rename_i c8 hpb
        split at h
        · rename_i e s hlex
          injection h with h2
          exact PResult.noConfusion h2
        · rename_i c9 hlex
          cases h
          exact ⟨hid, c6, c8, hph, hpb, hlex⟩

/-- A successful call-loop iteration strictly advances the cursor. -/
theorem parse_call_advance {procIdx : Nat} {c c4 : Compiler}
    (h : parse_call procIdx c = .ok c4) : c.cursor.point < c4.cursor.point := by
  obtain ⟨_, c2, c3, l2, t2, l3, t3, l4⟩ := parse_call_ok h
  obtain ⟨_, _, _, _, _, a2, _, _⟩ := lex_ok_spec l2
  obtain ⟨_, _, _, _, _, a3, _, _⟩ := lex_ok_spec l3
  obtain ⟨_, _, _, a4, _, _, _, _⟩ := lex_ok_spec l4
  have h2 : (register_call c procIdx).cursor.point < c2.cursor.point :=
    a2 (by rw [t2]; decide)
  have h3 : c2.cursor.point < c3.cursor.point := a3 (by rw [t3]; decide)
  have : (register_call c procIdx).cursor.point = c.cursor.point := rfl
  omega

/-- A successful call loop only moves the cursor forward and keeps it
inside the buffer. -/
theorem parse_body_point : ∀ (fuel procIdx : Nat) (c c' : Compiler),
    parse_body fuel procIdx c = some (.ok c') →
    c.cursor.point ≤ c'.cursor.point ∧ c'.content = c.content ∧
    (c.cursor.point ≤ c.content.length → c'.cursor.point ≤ c.content.length) := by
  intro fuel
  induction fuel with
  | zero =>
    intro i c c' h
    exact absurd h (by simp [parse_body])
  | succ n ih =>
    intro i c c' h
    rw [parse_body] at h
    split at h
    · cases h
      exact ⟨Nat.le_refl _, rfl, id⟩
    · split at h
      · rename_i e s heq
        injection h with h2
        exact PResult.noConfusion h2
      · rename_i c4 heq
        obtain ⟨ih1, ih2, ih3⟩ := ih i c4 c' h
        have hadv := parse_call_advance heq
        have hpres : c4.content = c.content ∧
            (c.cursor.point ≤ c.content.length → c4.cursor.point ≤ c.content.length) := by
          rcases parse_call_pres heq with ⟨p1, _, p3⟩ | ⟨p1, _, p3⟩ <;>
            simp only [PResult.state] at p1 p3
          · exact ⟨p1, p3⟩
          · simp only [register_call] at p1 p3
            exact ⟨p1, p3⟩
        obtain ⟨hp1, hp2⟩ := hpres
        refine ⟨by omega, ih2.trans hp1, fun hle => ?_⟩
        have h4 := hp2 hle
        have := ih3 (by rw [hp1]; exact h4)
        rwa [hp1] at this

/-- With fuel exceeding the remaining buffer length, the call-list loop
cannot run out: every iteration strictly advances the cursor, which never
leaves the buffer. -/
theorem parse_body_total : ∀ (fuel procIdx : Nat) (c : Compiler),
    c.cursor.point ≤ c.content.length →
    c.content.length + 1 ≤ fuel + c.cursor.point →
    (parse_body fuel procIdx c).isSome := by
  intro fuel
  induction fuel with
  | zero =>
    intro i c hp hf
    omega
  | succ n ih =>
    intro i c hp hf
    rw [parse_body]
    split
    · simp
    · split
      · simp
      · rename_i c4 heq
        have hadv := parse_call_advance heq
        have hpres : c4.content = c.content ∧
            (c.cursor.point ≤ c.content.length → c4.cursor.point ≤ c.content.length) := by
          rcases parse_call_pres heq with ⟨p1, _, p3⟩ | ⟨p1, _, p3⟩ <;>
            simp only [PResult.state] at p1 p3
          · exact ⟨p1, p3⟩
          · simp only [register_call] at p1 p3
            exact ⟨p1, p3⟩
        obtain ⟨hp1, hp2⟩ := hpres
        refine ih i c4 ?_ ?_
        · rw [hp1]
          exact hp2 hp
        · rw [hp1]
          omega

/-- A successful `parse_procedure` strictly advances the cursor and keeps
it inside the buffer. -/
theorem parse_procedure_point {fuel : Nat} {c c' : Compiler}
    (h : parse_procedure fuel c = some (.ok c')) :
    c.cursor.point < c'.cursor.point ∧ c'.content = c.content ∧
    (c.cursor.point ≤ c.content.length → c'.cursor.point ≤ c.content.length) := by
  obtain ⟨hid, c6, c8, hph, hpb, hlex⟩ := parse_procedure_ok h
  obtain ⟨c1, c2, c3, c4, c5, h1, h2, h3, h4, h5, h6, h7, h8, h9, h10, h11⟩ :=
    parse_header_ok hph
  obtain ⟨b1c, _, _, b1m, b1le, b1s, _, _⟩ := lex_ok_spec h1
  obtain ⟨b2c, _, _, b2m, b2le, _, _, _⟩ := lex_ok_spec h3
  obtain ⟨b3c, _, _, b3m, b3le, _, _, _⟩ := lex_ok_spec h5
  obtain ⟨b4c, _, _, b4m, b4le, _, _, _⟩ := lex_ok_spec h7
  obtain ⟨b5c, _, _, b5m, b5le, _, _, _⟩ := lex_ok_spec h9
  obtain ⟨b6c, _, _, b6m, b6le, _, _, _⟩ := lex_ok_spec h11
  obtain ⟨pb1, pb2, pb3⟩ := parse_body_point _ _ _ _ hpb
  obtain ⟨lc, _, _, lm, lle, _, _, _⟩ := lex_ok_spec hlex
  have hc1c : c1.content = c.content := b1c
  have hc2c : c2.content = c.content := b2c.trans hc1c
  have hc3c : c3.content = c.content := b3c.trans hc2c
  have hc4c : c4.content = c.content := b4c.trans hc3c
  have hc5c : c5.content = c.content := b5c.trans hc4c
  have hc6c : c6.content = c.content := b6c.trans hc5c
  have hs1 : c.cursor.point < c1.cursor.point := b1s (by rw [h2]; decide)
  have hle1 : c.cursor.point ≤ c.content.length → c1.cursor.point ≤ c.content.length := b1le
  have hle2 : c1.cursor.point ≤ c.content.length → c2.cursor.point ≤ c.content.length := by
    rw [← hc1c]
    exact b2le
  have hle3 : c2.cursor.point ≤ c.content.length → c3.cursor.point ≤ c.content.length := by
    rw [← hc2c]
    exact b3le
  have hle4 : c3.cursor.point ≤ c.content.length → c4.cursor.point ≤ c.content.length := by
    rw [← hc3c]
    exact b4le
  have hle5 : c4.cursor.point ≤ c.content.length → c5.cursor.point ≤ c.content.length := by
    rw [← hc4c]
    exact b5le
  have hle6 : c5.cursor.point ≤ c.content.length → c6.cursor.point ≤ c.content.length := by
    rw [← hc5c]
    exact b6le
  have hpb1 : c6.cursor.point ≤ c8.cursor.point := pb1
  have hpb3 : c6.cursor.point ≤ c6.content.length → c8.cursor.point ≤ c6.content.length := pb3
  rw [hc6c] at hpb3
  have hc8c : c8.content = c.content := pb2.trans hc6c
  rw [hc8c] at lle
  refine ⟨by omega, lc.trans hc8c, fun hle => ?_⟩
  exact lle (hpb3 (hle6 (hle5 (hle4 (hle3 (hle2 (hle1 hle)))))))

/-- With fuel exceeding the remaining buffer length, `parse_procedure`
cannot run out of fuel. -/
theorem parse_procedure_total (fuel : Nat) (c : Compiler)
    (hp : c.cursor.point ≤ c.content.length)
    (hf : c.content.length + 1 ≤ fuel + c.cursor.point) :
    (parse_procedure fuel c).isSome := by
  rw [parse_procedure]
  split
  · simp
  · simp only []
    split
    · simp
    · rename_i c6 hph
      obtain ⟨c1, c2, c3, c4, c5, h1, h2, h3, h4, h5, h6, h7, h8, h9, h10, h11⟩ :=
        parse_header_ok hph
      obtain ⟨b1c, _, _, b1m, b1le, _, _, _⟩ := lex_ok_spec h1
      obtain ⟨b2c, _, _, b2m, b2le, _, _, _⟩ := lex_ok_spec h3
      obtain ⟨b3c, _, _, b3m, b3le, _, _, _⟩ := lex_ok_spec h5
      obtain ⟨b4c, _, _, b4m, b4le, _, _, _⟩ := lex_ok_spec h7
      obtain ⟨b5c, _, _, b5m, b5le, _, _, _⟩ := lex_ok_spec h9
      obtain ⟨b6c, _, _, b6m, b6le, _, _, _⟩ := lex_ok_spec h11
      have hc1c : c1.content = c.content := b1c
      have hc2c : c2.content = c.content := b2c.trans hc1c
      have hc3c : c3.content = c.content := b3c.trans hc2c
      have hc4c : c4.content = c.content := b4c.trans hc3c
      have hc5c : c5.content = c.content := b5c.trans hc4c
      have hc6c : c6.content = c.content := b6c.trans hc5c
      have hm1 : c.cursor.point ≤ c1.cursor.point := b1m
      have hle1 : c.cursor.point ≤ c.content.length → c1.cursor.point ≤ c.content.length := b1le
      have hle2 : c1.cursor.point ≤ c.content.length → c2.cursor.point ≤ c.content.length := by
        rw [← hc1c]
        exact b2le
      have hle3 : c2.cursor.point ≤ c.content.length → c3.cursor.point ≤ c.content.length := by
        rw [← hc2c]
        exact b3le
      have hle4 : c3.cursor.point ≤ c.content.length → c4.cursor.point ≤ c.content.length := by
        rw [← hc3c]
        exact b4le
      have hle5 : c4.cursor.point ≤ c.content.length → c5.cursor.point ≤ c.content.length := by
        rw [← hc4c]
        exact b5le
      have hle6 : c5.cursor.point ≤ c.content.length → c6.cursor.point ≤ c.content.length := by
        rw [← hc5c]
        exact b6le
      have hc6le : c6.cursor.point ≤ c.content.length :=
        hle6 (hle5 (hle4 (hle3 (hle2 (hle1 hp)))))
      have hc6m : c.cursor.point ≤ c6.cursor.point := by omega
      have htot := parse_body_total fuel
        (find_or_create c.procedures c.currentToken.lexeme).1
        (clear_state c6 (find_or_create c.procedures c.currentToken.lexeme).1)
        (show c6.cursor.point ≤ c6.content.length by rw [hc6c]; exact hc6le)
        (show c6.content.length + 1 ≤ fuel + c6.cursor.point by rw [hc6c]; omega)
      rcases hb : parse_body fuel (find_or_create c.procedures c.currentToken.lexeme).1
          (clear_state c6 (find_or_create c.procedures c.currentToken.lexeme).1) with _ | r
      · rw [hb] at htot
        exact absurd htot (by simp)
      · have hb' := hb
        simp only [clear_state] at hb'
        rw [hb']
        cases r with
        | err e s => rfl
        | ok c8 =>
          cases hl : lex c8 <;> simp [hl]

/-- With fuel exceeding the buffer length, the declaration loop cannot run
out of fuel. -/
theorem parse_loop_total : ∀ (fuel bodyFuel : Nat) (c : Compiler),
    c.cursor.point ≤ c.content.length →
    c.content.length + 2 ≤ fuel + c.cursor.point →
    c.content.length + 1 ≤ bodyFuel →
    (parse_loop fuel bodyFuel c).isSome := by
  intro fuel
  induction fuel with
  | zero =>
    intro bf c hp hf hbf
    omega
  | succ n ih =>
    intro bf c hp hf hbf
    rw [parse_loop]
    split
    · simp
    · have htot := parse_procedure_total bf c hp (by omega)
      rcases hpp : parse_procedure bf c with _ | r
      · rw [hpp] at htot
        exact absurd htot (by simp)
      · cases r with
        | err e s => simp
        | ok c' =>
          obtain ⟨hadv, hcc, hle⟩ := parse_procedure_point hpp
          refine ih bf c' ?_ ?_ (by rw [hcc]; exact hbf)
          · rw [hcc]
            exact hle hp
          · rw [hcc]
            omega

/-- `parse` always delivers a verdict: the fuel `length + 2` supplied by
`parse` is sufficient, so the fuel-exhaustion case is unreachable. -/
theorem parse_total (c : Compiler) (hp : c.cursor.point ≤ c.content.length) :
    (parse c).isSome := by
  rw [parse]
  cases hl : lex c with
  | err e s => simp [parse_start]
  | ok c1 =>
    obtain ⟨l1, _, _, _, lle, _, _, _⟩ := lex_ok_spec hl
    show (parse_loop (c.content.length + 2) (c.content.length + 2) c1).isSome = true
    refine parse_loop_total _ _ c1 ?_ ?_ ?_
    · rw [l1]
      exact lle hp
    · rw [l1]
      omega
    · rw [l1]
      omega

/-- Collecting tokens by repeated `lex` until an end-of-input token, on
fuel: `none` for fuel exhaustion, otherwise the token list (including the
final end-of-input token) or the lexical error encountered.  The argument
is the result of the latest `lex`. -/
def tokenize_loop : Nat → PResult → List Token → Option (Except CompileError (List Token))
  | 0, _, _ => none
  | fuel + 1, r, acc =>
    match r with
    | .err e _ => some (.error e)
    | .ok c' =>
      if c'.currentToken.type = .eofToken then some (.ok (acc ++ [c'.currentToken]))
      else tokenize_loop fuel (lex c') (acc ++ [c'.currentToken])

/-- Repeated `lex` over a whole source, with the fuel `parse`-style
analysis proves sufficient. -/
def tokenize (source : List Char) : Option (Except CompileError (List Token)) :=
  tokenize_loop (source.length + 1) (lex (compiler_new source)) []

/-- Fuel sufficiency for `tokenize_loop`: every non-end-of-input token
strictly advances the cursor, which never leaves the buffer. -/
theorem tokenize_loop_total : ∀ (fuel : Nat) (c : Compiler) (acc : List Token),
    c.cursor.point ≤ c.content.length →
    c.content.length + 1 ≤ fuel + c.cursor.point →
    (tokenize_loop fuel (lex c) acc).isSome := by
  intro fuel
  induction fuel with
  | zero =>
    intro c acc hp hf
    omega
  | succ n ih =>
    intro c acc hp hf
    cases hl : lex c with
    | err e s => simp [tokenize_loop]
    | ok c' =>
      obtain ⟨l1, _, _, _, lle, ls, _, _⟩ := lex_ok_spec hl
      rw [tokenize_loop]
      show (if c'.currentToken.type = .eofToken then some (Except.ok (acc ++ [c'.currentToken]))
        else tokenize_loop n (lex c') (acc ++ [c'.currentToken])).isSome = true
      by_cases he : c'.currentToken.type = .eofToken
      · rw [if_pos he]
        simp
      · rw [if_neg he]
        refine ih c' _ ?_ ?_
        · rw [l1]
          exact lle hp
        · rw [l1]
          have := ls he
          omega

/-- `tokenize` always delivers a verdict. -/
theorem tokenize_total (source : List Char) : (tokenize source).isSome := by
  unfold tokenize
  exact tokenize_loop_total _ _ _ (by simp [compiler_new]) (by simp [compiler_new])

/-- Iterated `lex` (the step loop of the visualizer, or any driver that
keeps calling the lexer). -/
def lex_iter : Nat → Compiler → PResult
  | 0, c => .ok c
  | n + 1, c => (lex c).andThen (lex_iter n)

/-- A compiler state that has just produced an end-of-input token: the
cursor rests on the terminator and the current token is the end-of-input
token at the cursor position with an empty lexeme. -/
def AtEofState (c : Compiler) : Prop :=
  cursor_is_at_end c.cursor c.content = true ∧
  c.currentToken.type = .eofToken ∧ c.currentToken.lexeme = [] ∧
  c.currentToken.row = c.cursor.row ∧ c.currentToken.col = c.cursor.col

/-- Whenever `lex` returns an end-of-input token, the resulting state is an
end-of-input state. -/
theorem lex_ok_eof_state {c c' : Compiler} (h : lex c = .ok c')
    (he : c'.currentToken.type = .eofToken) : AtEofState c' := by
  obtain ⟨_, _, _, _, _, _, _, heof⟩ := lex_ok_spec h
  obtain ⟨e1, e2, e3, e4⟩ := heof he
  exact ⟨e2, he, e1, e3, e4⟩

/-- One further `lex` from an end-of-input state again produces an
end-of-input token at the same position without moving the cursor. -/
theorem lex_eof_step {c : Compiler} (h : AtEofState c) :
    ∃ c2, lex c = .ok c2 ∧ AtEofState c2 ∧ c2.cursor = c.cursor ∧ c2.content = c.content := by
  obtain ⟨hend, _, _, _, _⟩ := h
  refine ⟨_, lex_at_end hend, ⟨hend, rfl, rfl, rfl, rfl⟩, rfl, rfl⟩

/-- Arbitrarily many further `lex` calls from an end-of-input state keep
producing end-of-input tokens at the same position without moving the
cursor. -/
theorem lex_iter_eof : ∀ (n : Nat) {c : Compiler}, AtEofState c →
    ∃ c'', lex_iter n c = .ok c'' ∧ AtEofState c'' ∧
      c''.cursor = c.cursor ∧ c''.content = c.content := by
  intro n
  induction n with
  | zero =>
    intro c h
    exact ⟨c, rfl, h, rfl, rfl⟩
  | succ m ih =>
    intro c h
    obtain ⟨c2, hl, h2, hcur, hcon⟩ := lex_eof_step h
    obtain ⟨c'', hi, h'', hcur', hcon'⟩ := ih h2
    refine ⟨c'', ?_, h'', hcur'.trans hcur, hcon'.trans hcon⟩
    rw [lex_iter, hl]
    simp only [PResult.andThen]
    exact hi

/-! ### Line structure of the generated assembly -/

/-- Splitting a character sequence at newlines (the final newline, always
present in the generated output, yields a trailing empty line). -/
def split_lines : List Char → List (List Char)
  | [] => [[]]
  | ch :: rest =>
    if ch = '\n' then [] :: split_lines rest
    else
      match split_lines rest with
      | [] => [[ch]]
      | l :: ls => (ch :: l) :: ls

/-- A line defines a label iff it ends in `:`; the label is the line
without the colon (assembler convention, as emitted by `generate_code`). -/
def label_of_line (l : List Char) : Option (List Char) :=
  match l.getLast? with
  | some ch => if ch = ':' then some l.dropLast else none
  | none => none

/-- The labels defined by an assembly text. -/
def labels_of (text : List Char) : List (List Char) :=
  (split_lines text).filterMap label_of_line

/-- Joining lines, each terminated by a newline. -/
def unlines (ls : List (List Char)) : List Char :=
  (ls.map (fun l => l ++ ['\n'])).flatten

/-- The per-procedure block structure of the output: label, fixed
2-instruction prologue, one call line per call-list entry in order, fixed
2-instruction epilogue plus return, blank separator line. -/
def proc_block_lines (procs : List Procedure) (p : Procedure) : List (List Char) :=
  [p.name ++ [':'], "    push rbp".data, "    mov rbp, rsp".data] ++
  p.calls.map (fun j => "    call ".data ++ proc_name_at procs j) ++
  ["    mov rsp, rbp".data, "    pop rbp".data, "    ret".data, []]

/-- The complete line structure of the output: the `global _start` header
and `section .text` (each followed by a blank line), the per-procedure
blocks in table order, and the fixed `_start` block. -/
def asm_lines (procs : List Procedure) : List (List Char) :=
  ["global _start".data, [], "section .text".data, []] ++
  (procs.map (proc_block_lines procs)).flatten ++
  ["_start:".data, "    call main".data, "    mov rax, 60".data, "    xor rdi, rdi".data,
    "    syscall".data]

theorem unlines_nil : unlines [] = [] := rfl

theorem unlines_append (a b : List (List Char)) :
    unlines (a ++ b) = unlines a ++ unlines b := by
  simp [unlines]

theorem unlines_cons (l : List Char) (ls : List (List Char)) :
    unlines (l :: ls) = l ++ '\n' :: unlines ls := by
  simp [unlines]

theorem gen_call_lines (procs : List Procedure) (calls : List Nat) :
    (calls.map (fun j => "    call ".data ++ proc_name_at procs j ++ "\n".data)).flatten =
    unlines (calls.map (fun j => "    call ".data ++ proc_name_at procs j)) := by
  induction calls with
  | nil => rfl
  | cons j rest ih =>
    simp only [List.map_cons, List.flatten_cons, unlines_cons, ih]
    simp

theorem gen_block (procs : List Procedure) (p : Procedure) :
    p.name ++ ":\n    push rbp\n    mov rbp, rsp\n".data ++
    (p.calls.map (fun j => "    call ".data ++ proc_name_at procs j ++ "\n".data)).flatten ++
    "    mov rsp, rbp\n    pop rbp\n    ret\n\n".data
    = unlines (proc_block_lines procs p) := by
  unfold proc_block_lines
  rw [unlines_append, unlines_append, gen_call_lines]
  have h1 : unlines [p.name ++ [':'], "    push rbp".data, "    mov rbp, rsp".data] =
      p.name ++ ":\n    push rbp\n    mov rbp, rsp\n".data := by
    simp only [unlines_cons, unlines_nil]
    simp
  have h2 : unlines ["    mov rsp, rbp".data, "    pop rbp".data, "    ret".data, []] =
      "    mov rsp, rbp\n    pop rbp\n    ret\n\n".data := by
    simp only [unlines_cons, unlines_nil]
    decide
  rw [h1, h2]

theorem gen_middle (procs : List Procedure) : ∀ (l : List Procedure),
    (l.map (fun p =>
      p.name ++ ":\n    push rbp\n    mov rbp, rsp\n".data ++
      (p.calls.map (fun j => "    call ".data ++ proc_name_at procs j ++ "\n".data)).flatten ++
      "    mov rsp, rbp\n    pop rbp\n    ret\n\n".data)).flatten =
    unlines ((l.map (proc_block_lines procs)).flatten) := by
  intro l
  induction l with
  | nil => rfl
  | cons p rest ih =>
    simp only [List.map_cons, List.flatten_cons, unlines_append]
    rw [← gen_block, ih]

/-- The output of `generate_code` is exactly the newline-joined line
structure `asm_lines`. -/
theorem generate_code_unlines (procs : List Procedure) :
    generate_code procs = unlines (asm_lines procs) := by
  unfold generate_code asm_lines
  rw [unlines_append, unlines_append, ← gen_middle procs procs]
  have h1 : unlines ["global _start".data, [], "section .text".data, []] =
      "global _start\n\nsection .text\n\n".data := by
    simp only [unlines_cons, unlines_nil]
    decide
  have h2 : unlines ["_start:".data, "    call main".data, "    mov rax, 60".data,
      "    xor rdi, rdi".data, "    syscall".data] =
      "_start:\n    call main\n    mov rax, 60\n    xor rdi, rdi\n    syscall\n".data := by
    simp only [unlines_cons, unlines_nil]
    decide
  rw [h1, h2]

theorem flatten_map_singleton_name : ∀ (l : List Procedure),
    (l.map fun p => [p.name]).flatten = names_of l := by
  intro l
  induction l with
  | nil => rfl
  | cons p t ih =>
    simp only [List.map_cons, List.flatten_cons, ih]
    rfl

theorem proc_name_at_cases (procs : List Procedure) (j : Nat) :
    proc_name_at procs j = [] ∨ ∃ p ∈ procs, proc_name_at procs j = p.name := by
  unfold proc_name_at
  by_cases hj : j < procs.length
  · right
    refine ⟨procs.getD j default, ?_, rfl⟩
    rw [List.getD_eq_getElem?_getD, List.getElem?_eq_getElem hj]
    exact List.getElem_mem hj
  · left
    rw [List.getD_eq_default _ _ (Nat.le_of_not_lt hj)]
    rfl

theorem valid_ident_no_newline {n : List Char} (h : valid_ident n) : '\n' ∉ n := by
  intro hm
  exact absurd (h.2 _ hm) (by decide)

theorem label_of_line_label (n : List Char) : label_of_line (n ++ [':']) = some n := by
  unfold label_of_line
  rw [List.getLast?_concat]
  simp [List.dropLast_concat]

theorem label_of_line_call {procs : List Procedure}
    (hv : ∀ p ∈ procs, valid_ident p.name) (j : Nat) :
    label_of_line ("    call ".data ++ proc_name_at procs j) = none := by
  rcases proc_name_at_cases procs j with h | ⟨p, hp, h⟩
  · rw [h]
    decide
  · rw [h]
    unfold label_of_line
    have hne : p.name ≠ [] := (hv p hp).1
    rw [List.getLast?_append_of_ne_nil _ hne]
    cases hg : p.name.getLast? with
    | none => rfl
    | some ch =>
      have hmem : ch ∈ p.name := List.mem_of_mem_getLast? hg
      have hch := (hv p hp).2 ch hmem
      have hcc : ¬ ch = ':' := by
        intro he
        subst he
        exact absurd hch (by decide)
      simp [hcc]

theorem split_lines_line_append (l rest : List Char) (h : '\n' ∉ l) :
    split_lines (l ++ '\n' :: rest) = l :: split_lines rest := by
  induction l with
  | nil => simp [split_lines]
  | cons c t ih =>
    have hc : ¬ c = '\n' := fun he => h (he ▸ List.mem_cons_self c t)
    have ht : '\n' ∉ t := fun hm => h (List.mem_cons_of_mem c hm)
    simp only [List.cons_append, split_lines, if_neg hc]
    simp only [List.append_eq, ih ht]

theorem split_lines_unlines : ∀ (ls : List (List Char)), (∀ l ∈ ls, '\n' ∉ l) →
    split_lines (unlines ls) = ls ++ [[]] := by
  intro ls
  induction ls with
  | nil =>
    intro
    rfl
  | cons l t ih =>
    intro h
    rw [unlines_cons, split_lines_line_append l _ (h l (List.mem_cons_self l t)),
      ih fun x hx => h x (List.mem_cons_of_mem _ hx)]
    rfl

theorem asm_lines_no_newline {procs : List Procedure}
    (hv : ∀ p ∈ procs, valid_ident p.name) :
    ∀ l ∈ asm_lines procs, '\n' ∉ l := by
  intro l hl
  unfold asm_lines at hl
  rcases List.mem_append.1 hl with hl | hl
  rcases List.mem_append.1 hl with hl | hl
  · simp only [List.mem_cons, List.not_mem_nil, or_false] at hl
    rcases hl with rfl | rfl | rfl | rfl <;> decide
  · rw [List.mem_flatten] at hl
    obtain ⟨blk, hblk, hlb⟩ := hl
    rw [List.mem_map] at hblk
    obtain ⟨p, hp, rfl⟩ := hblk
    unfold proc_block_lines at hlb
    rcases List.mem_append.1 hlb with hlb | hlb
    rcases List.mem_append.1 hlb with hlb | hlb
    · simp only [List.mem_cons, List.not_mem_nil, or_false] at hlb
      rcases hlb with rfl | rfl | rfl
      · intro hnl
        rcases List.mem_append.1 hnl with hnl | hnl
        · exact valid_ident_no_newline (hv p hp) hnl
        · simp at hnl
      · decide
      · decide
    · rw [List.mem_map] at hlb
      obtain ⟨j, hj, rfl⟩ := hlb
      intro hnl
      rcases List.mem_append.1 hnl with hnl | hnl
      · revert hnl
        decide
      · rcases proc_name_at_cases procs j with h | ⟨q, hq, h⟩
        · rw [h] at hnl
          simp at hnl
        · rw [h] at hnl
          exact valid_ident_no_newline (hv q hq) hnl
    · simp only [List.mem_cons, List.not_mem_nil, or_false] at hlb
      rcases hlb with rfl | rfl | rfl | rfl <;> decide
  · simp only [List.mem_cons, List.not_mem_nil, or_false] at hl
    rcases hl with rfl | rfl | rfl | rfl | rfl <;> decide

/-- The labels of the generated assembly are exactly the table names, in
table order, followed by `_start`. -/
theorem labels_of_generate {procs : List Procedure}
    (hv : ∀ p ∈ procs, valid_ident p.name) :
    labels_of (generate_code procs) = names_of procs ++ ["_start".data] := by
  rw [generate_code_unlines]
  unfold labels_of
  rw [split_lines_unlines _ (asm_lines_no_newline hv), List.filterMap_append]
  have htail : List.filterMap label_of_line [([] : List Char)] = [] := by decide
  rw [htail, List.append_nil]
  unfold asm_lines
  rw [List.filterMap_append, List.filterMap_append]
  have hhead : List.filterMap label_of_line
      ["global _start".data, [], "section .text".data, []] = [] := by decide
  have hstart : List.filterMap label_of_line
      ["_start:".data, "    call main".data, "    mov rax, 60".data, "    xor rdi, rdi".data,
        "    syscall".data] = ["_start".data] := by decide
  rw [hhead, hstart, List.nil_append]
  congr 1
  rw [List.filterMap_flatten, List.map_map]
  have hblk : ∀ p ∈ procs,
      (List.filterMap label_of_line ∘ proc_block_lines procs) p = [p.name] := by
    intro p hp
    show List.filterMap label_of_line (proc_block_lines procs p) = [p.name]
    unfold proc_block_lines
    rw [List.filterMap_append, List.filterMap_append]
    have hpush : label_of_line "    push rbp".data = none := by decide
    have hmov : label_of_line "    mov rbp, rsp".data = none := by decide
    have h1 : List.filterMap label_of_line
        [p.name ++ [':'], "    push rbp".data, "    mov rbp, rsp".data] = [p.name] := by
      simp [List.filterMap_cons, label_of_line_label, hpush, hmov]
    have h2 : List.filterMap label_of_line
        (p.calls.map fun j => "    call ".data ++ proc_name_at procs j) = [] := by
      rw [List.filterMap_map]
      exact List.filterMap_eq_nil_iff.2 fun j hj => label_of_line_call hv j
    have h3 : List.filterMap label_of_line
        ["    mov rsp, rbp".data, "    pop rbp".data, "    ret".data, []] = [] := by decide
    rw [h1, h2, h3]
    simp
  rw [List.map_congr_left hblk, flatten_map_singleton_name]

/-! ### The parser invariant -/

/-- The invariant the parser maintains at procedure and loop boundaries:
the table names are exactly the identifiers seen so far as declaration
subjects or call targets; all names are well-formed identifier lexemes;
all call edges are valid arena indices; the current token is the last
history entry; an identifier current token has a well-formed lexeme. -/
structure Inv (c : Compiler) : Prop where
  tableNames : ∀ x, x ∈ names_of c.procedures ↔
    (x ∈ declared_idents c.history ∨ x ∈ call_idents c.history)
  validNames : ∀ p ∈ c.procedures, valid_ident p.name
  callsWf : ∀ p ∈ c.procedures, ∀ j ∈ p.calls, j < c.procedures.length
  histCur : c.history.getLast? = some c.currentToken
  curValid : c.currentToken.type = .identifier → valid_ident c.currentToken.lexeme

theorem find_or_create_callsWf {procs : List Procedure} (n : List Char)
    (h : ∀ p ∈ procs, ∀ j ∈ p.calls, j < procs.length) :
    ∀ p ∈ (find_or_create procs n).2, ∀ j ∈ p.calls, j < (find_or_create procs n).2.length := by
  rcases find_or_create_cases procs n with ⟨q, h1, _, _, _⟩ | ⟨h1, _, _⟩
  · rw [h1]
    exact h
  · rw [h1]
    intro p hp j hj
    rcases List.mem_append.1 hp with hp | hp
    · have := h p hp j hj
      simp
      omega
    · rcases List.mem_singleton.1 hp with rfl
      simp at hj

theorem procedure_add_call_callsWf {procs : List Procedure} {i k : Nat}
    (h : ∀ p ∈ procs, ∀ j ∈ p.calls, j < procs.length) (hk : k < procs.length) :
    ∀ p ∈ procedure_add_call procs i k, ∀ j ∈ p.calls,
      j < (procedure_add_call procs i k).length := by
  rw [procedure_add_call_length]
  intro p hp j hj
  unfold procedure_add_call at hp
  split at hp
  · rename_i q hq
    rcases List.mem_or_eq_of_mem_set hp with hp | rfl
    · exact h p hp j hj
    · rcases List.mem_append.1 hj with hj | hj
      · exact h q (List.getElem?_mem hq) j hj
      · rcases List.mem_singleton.1 hj with rfl
        exact hk
  · exact h p hp j hj

theorem procedure_add_call_valid {procs : List Procedure} {i k : Nat}
    (h : ∀ p ∈ procs, valid_ident p.name) :
    ∀ p ∈ procedure_add_call procs i k, valid_ident p.name := by
  intro p hp
  unfold procedure_add_call at hp
  split at hp
  · rename_i q hq
    rcases List.mem_or_eq_of_mem_set hp with hp | rfl
    · exact h p hp
    · exact h q (List.getElem?_mem hq)
  · exact h p hp

theorem clear_calls_callsWf {procs : List Procedure} {i : Nat}
    (h : ∀ p ∈ procs, ∀ j ∈ p.calls, j < procs.length) :
    ∀ p ∈ clear_calls procs i, ∀ j ∈ p.calls, j < (clear_calls procs i).length := by
  rw [clear_calls_length]
  intro p hp j hj
  unfold clear_calls at hp
  split at hp
  · rename_i q hq
    rcases List.mem_or_eq_of_mem_set hp with hp | rfl
    · exact h p hp j hj
    · simp at hj
  · exact h p hp j hj

theorem clear_calls_valid {procs : List Procedure} {i : Nat}
    (h : ∀ p ∈ procs, valid_ident p.name) :
    ∀ p ∈ clear_calls procs i, valid_ident p.name := by
  intro p hp
  unfold clear_calls at hp
  split at hp
  · rename_i q hq
    rcases List.mem_or_eq_of_mem_set hp with hp | rfl
    · exact h p hp
    · exact h q (List.getElem?_mem hq)
  · exact h p hp

/-- Adjacency is unchanged by lexing when the consumed token is not an
identifier (no declaration subject or call target can end at it). -/
theorem adj_lex_nonident {c c' : Compiler} (h : lex c = .ok c')
    (hl : c.history.getLast? = some c.currentToken)
    (hni : c.currentToken.type ≠ .identifier) :
    declared_idents c'.history = declared_idents c.history ∧
    call_idents c'.history = call_idents c.history := by
  rw [declared_idents_lex h hl, call_idents_lex h hl]
  constructor <;>
    · rw [show ∀ o : Option (List Char), o = none → o.toList = [] from fun o ho => ho ▸ rfl]
      · simp
      · simp [decl_pair, call_pair, hni]

/-- Lexing away an identifier that turns out to be followed by `::`
appends it to the declared identifiers and leaves the call targets
unchanged. -/
theorem adj_lex_decl {c c' : Compiler} (h : lex c = .ok c')
    (hl : c.history.getLast? = some c.currentToken)
    (hi : c.currentToken.type = .identifier)
    (ht : c'.currentToken.type = .doubleColon) :
    declared_idents c'.history = declared_idents c.history ++ [c.currentToken.lexeme] ∧
    call_idents c'.history = call_idents c.history := by
  rw [declared_idents_lex h hl, call_idents_lex h hl]
  constructor
  · simp [decl_pair, hi, ht]
  · simp [call_pair, ht]

/-- Lexing away an identifier that turns out to be followed by `(`
appends it to the call targets and leaves the declared identifiers
unchanged. -/
theorem adj_lex_call {c c' : Compiler} (h : lex c = .ok c')
    (hl : c.history.getLast? = some c.currentToken)
    (hi : c.currentToken.type = .identifier)
    (ht : c'.currentToken.type = .lparen) :
    call_idents c'.history = call_idents c.history ++ [c.currentToken.lexeme] ∧
    declared_idents c'.history = declared_idents c.history := by
  rw [declared_idents_lex h hl, call_idents_lex h hl]
  constructor
  · simp [call_pair, hi, ht]
  · simp [decl_pair, ht]

/-- The invariant survives the registration of a declaration name plus the
consumption of that name when the next token is `::`. -/
theorem inv_header_step {c c1 : Compiler} (hinv : Inv c)
    (hid : c.currentToken.type = .identifier)
    (hl1 : lex (register_decl c) = .ok c1)
    (ht1 : c1.currentToken.type = .doubleColon) : Inv c1 := by
  have hadj := adj_lex_decl hl1
    (show (register_decl c).history.getLast? = some (register_decl c).currentToken from
      hinv.histCur)
    (show (register_decl c).currentToken.type = .identifier from hid) ht1
  have hd : declared_idents c1.history =
      declared_idents c.history ++ [c.currentToken.lexeme] := hadj.1
  have hc : call_idents c1.history = call_idents c.history := hadj.2
  obtain ⟨_, lp, _, _, _, _, lv, _⟩ := lex_ok_spec hl1
  refine ⟨?_, ?_, ?_, lex_histCur hl1, lv⟩
  · intro x
    rw [hd, hc, lp]
    have h1 : x ∈ names_of (register_decl c).procedures ↔
        x ∈ names_of c.procedures ∨ x = c.currentToken.lexeme := register_decl_names c x
    rw [h1, hinv.tableNames x]
    simp only [List.mem_append, List.mem_singleton]
    exact or_right_comm
  · rw [lp]
    show ∀ p ∈ (register_decl c).procedures, valid_ident p.name
    simp only [register_decl]
    exact find_or_create_valid hinv.validNames (hinv.curValid hid)
  · rw [lp]
    show ∀ p ∈ (register_decl c).procedures, ∀ j ∈ p.calls,
      j < (register_decl c).procedures.length
    simp only [register_decl]
    exact find_or_create_callsWf _ hinv.callsWf

/-- The invariant survives consuming any non-identifier token. -/
theorem inv_lex_nonident {c c' : Compiler} (hinv : Inv c) (h : lex c = .ok c')
    (hni : c.currentToken.type ≠ .identifier) : Inv c' := by
  obtain ⟨hd, hc2⟩ := adj_lex_nonident h hinv.histCur hni
  obtain ⟨_, lp, _, _, _, _, lv, _⟩ := lex_ok_spec h
  refine ⟨?_, ?_, ?_, lex_histCur h, lv⟩
  · intro x
    rw [hd, hc2, lp]
    exact hinv.tableNames x
  · rw [lp]
    exact hinv.validNames
  · rw [lp]
    exact hinv.callsWf

/-- The invariant survives the registration and recording of a call target
plus the consumption of its name when the next token is `(`. -/
theorem inv_call_step {c c2 : Compiler} {i : Nat} (hinv : Inv c)
    (hid : c.currentToken.type = .identifier)
    (hl : lex (register_call c i) = .ok c2)
    (ht : c2.currentToken.type = .lparen) : Inv c2 := by
  have hadj := adj_lex_call hl
    (show (register_call c i).history.getLast? = some (register_call c i).currentToken from
      hinv.histCur)
    (show (register_call c i).currentToken.type = .identifier from hid) ht
  have hc : call_idents c2.history = call_idents c.history ++ [c.currentToken.lexeme] := hadj.1
  have hd : declared_idents c2.history = declared_idents c.history := hadj.2
  obtain ⟨_, lp, _, _, _, _, lv, _⟩ := lex_ok_spec hl
  refine ⟨?_, ?_, ?_, lex_histCur hl, lv⟩
  · intro x
    rw [hd, hc, lp]
    have h1 : x ∈ names_of (register_call c i).procedures ↔
        x ∈ names_of c.procedures ∨ x = c.currentToken.lexeme := register_call_names c i x
    rw [h1, hinv.tableNames x]
    simp only [List.mem_append, List.mem_singleton]
    exact or_assoc
  · rw [lp]
    show ∀ p ∈ (register_call c i).procedures, valid_ident p.name
    simp only [register_call]
    exact procedure_add_call_valid (find_or_create_valid hinv.validNames (hinv.curValid hid))
  · rw [lp]
    show ∀ p ∈ (register_call c i).procedures, ∀ j ∈ p.calls,
      j < (register_call c i).procedures.length
    simp only [register_call]
    exact procedure_add_call_callsWf (find_or_create_callsWf _ hinv.callsWf)
      (find_or_create_length _ _).2

/-- The invariant survives resetting a call list. -/
theorem inv_clear {c6 : Compiler} {i : Nat} (hinv : Inv c6) : Inv (clear_state c6 i) := by
  refine ⟨?_, ?_, ?_, hinv.histCur, hinv.curValid⟩
  · intro x
    show x ∈ names_of (clear_calls c6.procedures i) ↔
      (x ∈ declared_idents c6.history ∨ x ∈ call_idents c6.history)
    rw [clear_calls_names]
    exact hinv.tableNames x
  · show ∀ p ∈ clear_calls c6.procedures i, valid_ident p.name
    exact clear_calls_valid hinv.validNames
  · show ∀ p ∈ clear_calls c6.procedures i, ∀ j ∈ p.calls,
      j < (clear_calls c6.procedures i).length
    exact clear_calls_callsWf hinv.callsWf

/-- The invariant survives the call-list loop; the loop exits at `}`. -/
theorem parse_body_inv : ∀ (fuel i : Nat) (c c' : Compiler),
    parse_body fuel i c = some (.ok c') → Inv c →
    Inv c' ∧ c'.currentToken.type = .rbrace := by
  intro fuel
  induction fuel with
  | zero =>
    intro i c c' h hinv
    exact absurd h (by simp [parse_body])
  | succ n ih =>
    intro i c c' h hinv
    rw [parse_body] at h
    split at h
    · rename_i hrb
      cases h
      exact ⟨hinv, hrb⟩
    · split at h
      · rename_i e s heq
        injection h with h2
        exact PResult.noConfusion h2
      · rename_i c4 heq
        obtain ⟨hid, c2, c3, hl2, t2, hl3, t3, hl4⟩ := parse_call_ok heq
        have i2 : Inv c2 := inv_call_step hinv hid hl2 t2
        have i3 : Inv c3 := inv_lex_nonident i2 hl3 (by rw [t2]; decide)
        have i4 : Inv c4 := inv_lex_nonident i3 hl4 (by rw [t3]; decide)
        exact ih i c4 c' h i4

/-- The invariant survives a whole procedure declaration. -/
theorem parse_procedure_inv {fuel : Nat} {c c' : Compiler}
    (h : parse_procedure fuel c = some (.ok c')) (hinv : Inv c) : Inv c' := by
  obtain ⟨hid, c6, c8, hph, hpb, hlex⟩ := parse_procedure_ok h
  obtain ⟨c1, c2, c3, c4, c5, h1, t1, h2, t2, h3, t3, h4, t4, h5, t5, h6⟩ :=
    parse_header_ok hph
  have i1 : Inv c1 := inv_header_step hinv hid h1 t1
  have i2 : Inv c2 := inv_lex_nonident i1 h2 (by rw [t1]; decide)
  have i3 : Inv c3 := inv_lex_nonident i2 h3 (by rw [t2]; decide)
  have i4 : Inv c4 := inv_lex_nonident i3 h4 (by rw [t3]; decide)
  have i5 : Inv c5 := inv_lex_nonident i4 h5 (by rw [t4]; decide)
  have i6 : Inv c6 := inv_lex_nonident i5 h6 (by rw [t5]; decide)
  have i7 : Inv (clear_state c6 (find_or_create c.procedures c.currentToken.lexeme).1) :=
    inv_clear i6
  obtain ⟨i8, hrb⟩ := parse_body_inv fuel _ _ c8 hpb i7
  exact inv_lex_nonident i8 hlex (by rw [hrb]; decide)

/-- The invariant survives the declaration loop. -/
theorem parse_loop_inv : ∀ (fuel bf : Nat) (c c' : Compiler),
    parse_loop fuel bf c = some (.ok c') → Inv c → Inv c' := by
  intro fuel
  induction fuel with
  | zero =>
    intro bf c c' h hinv
    exact absurd h (by simp [parse_loop])
  | succ n ih =>
    intro bf c c' h hinv
    rw [parse_loop] at h
    split at h
    · cases h
      exact hinv
    · split at h
      · exact Option.noConfusion h
      · rename_i e s hpp
        injection h with h2
        exact PResult.noConfusion h2
      · rename_i cm hpp
        exact ih bf cm c' h (parse_procedure_inv hpp hinv)

/-- The invariant holds right after the first `lex` of a fresh compiler. -/
theorem inv_initial {src : List Char} {c1 : Compiler}
    (h : lex (compiler_new src) = .ok c1) : Inv c1 := by
  obtain ⟨_, lp, lh, _, _, _, lv, _⟩ := lex_ok_spec h
  refine ⟨?_, ?_, ?_, lex_histCur h, lv⟩
  · intro x
    rw [lp, lh]
    show x ∈ names_of [] ↔
      (x ∈ declared_idents ([] ++ [c1.currentToken]) ∨
        x ∈ call_idents ([] ++ [c1.currentToken]))
    simp [names_of, declared_idents, call_idents, list_pairs]
  · rw [lp]
    intro p hp
    exact absurd hp (List.not_mem_nil p)
  · rw [lp]
    intro p hp
    exact absurd hp (List.not_mem_nil p)

/-- The invariant holds at the end of every successful parse. -/
theorem parse_inv {src : List Char} {c' : Compiler}
    (h : parse (compiler_new src) = some (.ok c')) : Inv c' := by
  rw [parse] at h
  cases hl : lex (compiler_new src) with
  | err e s =>
    rw [hl] at h
    simp [parse_start] at h
  | ok c1 =>
    rw [hl] at h
    simp only [parse_start] at h
    exact parse_loop_inv _ _ _ _ h (inv_initial hl)

/-! ### Exact tracking of a declaration's call list -/

theorem proc_name_at_eq {procs : List Procedure} {k : Nat} {p : Procedure}
    (h : procs[k]? = some p) : proc_name_at procs k = p.name := by
  unfold proc_name_at
  rw [List.getD_eq_getElem?_getD, h]
  rfl

theorem procedure_add_call_name_at (procs : List Procedure) (i k j : Nat) :
    ((procedure_add_call procs i k)[j]?).map Procedure.name =
      (procs[j]?).map Procedure.name := by
  by_cases hij : i = j
  · subst hij
    cases hq : procs[i]? with
    | none => simp [procedure_add_call, hq]
    | some q =>
      rw [procedure_add_call_at procs k hq]
      rfl
  · rw [procedure_add_call_other _ _ hij]

/-- Through one call-loop iteration and beyond: the table only grows, the
names of existing entries never change, and the call list of entry
`procIdx` is extended by exactly the call targets read, in order. -/
theorem parse_body_calls : ∀ (fuel procIdx : Nat) (c c' : Compiler),
    parse_body fuel procIdx c = some (.ok c') →
    c.history.getLast? = some c.currentToken →
    procIdx < c.procedures.length →
    c.procedures.length ≤ c'.procedures.length ∧
    (∀ j, j < c.procedures.length →
      ((c'.procedures[j]?).map Procedure.name) = ((c.procedures[j]?).map Procedure.name)) ∧
    c'.history.getLast? = some c'.currentToken ∧
    c'.currentToken.type = .rbrace ∧
    (∀ p, c.procedures[procIdx]? = some p →
      ∃ newIdx q, c'.procedures[procIdx]? = some q ∧ q.name = p.name ∧
        q.calls = p.calls ++ newIdx ∧
        call_idents c'.history = call_idents c.history ++
          newIdx.map (proc_name_at c'.procedures)) := by
  intro fuel
  induction fuel with
  | zero =>
    intro i c c' h hl hi
    exact absurd h (by simp [parse_body])
  | succ n ih =>
    intro i c c' h hl hi
    rw [parse_body] at h
    split at h
    · rename_i hrb
      cases h
      refine ⟨Nat.le_refl _, fun j hj => rfl, hl, hrb, fun p hp => ⟨[], p, hp, rfl, by simp, by simp⟩⟩
    · split at h
      · rename_i e s heq
        injection h with h2
        exact PResult.noConfusion h2
      · rename_i c4 heq
        obtain ⟨hid, c2, c3, hl2, t2, hl3, t3, hl4⟩ := parse_call_ok heq
        obtain ⟨_, p2, _, _, _, _, _, _⟩ := lex_ok_spec hl2
        obtain ⟨_, p3, _, _, _, _, _, _⟩ := lex_ok_spec hl3
        obtain ⟨_, p4, _, _, _, _, _, _⟩ := lex_ok_spec hl4
        have hT1 : c4.procedures = (register_call c i).procedures := by
          rw [p4, p3, p2]
        have hlenT1 : c.procedures.length ≤ (register_call c i).procedures.length := by
          show c.procedures.length ≤ (procedure_add_call _ _ _).length
          rw [procedure_add_call_length]
          exact (find_or_create_length _ _).1
        have hnamesT1 : ∀ j, j < c.procedures.length →
            (((register_call c i).procedures[j]?).map Procedure.name) =
              ((c.procedures[j]?).map Procedure.name) := by
          intro j hj
          show ((procedure_add_call _ _ _)[j]?).map Procedure.name = _
          rw [procedure_add_call_name_at]
          rw [find_or_create_preserves _ _ hj]
        -- adjacency across the three lex steps of the iteration
        have ha2 := adj_lex_call hl2
          (show (register_call c i).history.getLast? = some (register_call c i).currentToken
            from hl)
          (show (register_call c i).currentToken.type = .identifier from hid) t2
        have hcall2 : call_idents c2.history =
            call_idents c.history ++ [c.currentToken.lexeme] := ha2.1
        have ha3 := adj_lex_nonident hl3 (lex_histCur hl2) (by rw [t2]; decide)
        have ha4 := adj_lex_nonident hl4 (lex_histCur hl3) (by rw [t3]; decide)
        have hcall4 : call_idents c4.history =
            call_idents c.history ++ [c.currentToken.lexeme] := by
          rw [ha4.2, ha3.2, hcall2]
        obtain ⟨ihlen, ihnames, ihhist, ihrb, ihcalls⟩ := ih i c4 c' h (lex_histCur hl4)
          (by rw [hT1]; omega)
        have hlen4 : c.procedures.length ≤ c4.procedures.length := by
          rw [hT1]
          exact hlenT1
        refine ⟨Nat.le_trans hlen4 ihlen, ?_, ihhist, ihrb, ?_⟩
        · intro j hj
          rw [ihnames j (by omega), hT1, hnamesT1 j hj]
        · intro p hp
          -- the entry at procIdx after the call recording
          have hfp : (find_or_create c.procedures c.currentToken.lexeme).2[i]? = some p := by
            rw [find_or_create_preserves _ _ hi]
            exact hp
          have hT1i : (register_call c i).procedures[i]? =
              some { p with calls := p.calls ++
                [(find_or_create c.procedures c.currentToken.lexeme).1] } := by
            show (procedure_add_call _ _ _)[i]? = _
            exact procedure_add_call_at _ _ hfp
          have hc4i : c4.procedures[i]? =
              some { p with calls := p.calls ++
                [(find_or_create c.procedures c.currentToken.lexeme).1] } := by
            rw [hT1]
            exact hT1i
          obtain ⟨newIdx, q, hq1, hq2, hq3, hq4⟩ := ihcalls _ hc4i
          -- the callee entry bears the consumed identifier as name
          obtain ⟨pk, hpk1, hpk2⟩ :=
            find_or_create_entry c.procedures c.currentToken.lexeme
          have hkidx : (find_or_create c.procedures c.currentToken.lexeme).1 <
              c4.procedures.length := by
            rw [hT1]
            show _ < (procedure_add_call (find_or_create c.procedures c.currentToken.lexeme).2
              i (find_or_create c.procedures c.currentToken.lexeme).1).length
            rw [procedure_add_call_length]
            exact (find_or_create_length _ _).2
          have hkname : ((c'.procedures[(find_or_create c.procedures
              c.currentToken.lexeme).1]?).map Procedure.name) =
              some c.currentToken.lexeme := by
            rw [ihnames _ hkidx, hT1]
            show ((procedure_add_call _ _ _)[_]?).map Procedure.name = _
            rw [procedure_add_call_name_at, hpk1]
            simp [hpk2]
          obtain ⟨qk, hqk1, hqk2⟩ := Option.map_eq_some'.1 hkname
          refine ⟨(find_or_create c.procedures c.currentToken.lexeme).1 :: newIdx, q, hq1,
            hq2, by simp [hq3], ?_⟩
          rw [hq4, hcall4, List.map_cons, proc_name_at_eq hqk1, hqk2]
          simp

/-- The declared procedure's call list after a successful
`parse_procedure` holds exactly the call targets of this declaration's
body, in order: the reset at line 396 discards whatever calls the entry
held before, so a redeclaration replaces rather than appends. -/
theorem parse_procedure_calls {fuel : Nat} {c c' : Compiler}
    (h : parse_procedure fuel c = some (.ok c'))
    (hl : c.history.getLast? = some c.currentToken) :
    ∃ i, i < c'.procedures.length ∧
      proc_name_at c'.procedures i = c.currentToken.lexeme ∧
      ∃ q, c'.procedures[i]? = some q ∧
        q.calls.map (proc_name_at c'.procedures) =
          (call_idents c'.history).drop (call_idents c.history).length := by
  obtain ⟨hid, c6, c8, hph, hpb, hlex⟩ := parse_procedure_ok h
  obtain ⟨c1, c2, c3, c4, c5, h1, t1, h2, t2, h3, t3, h4, t4, h5, t5, h6⟩ :=
    parse_header_ok hph
  have ha1 := adj_lex_decl h1
    (show (register_decl c).history.getLast? = some (register_decl c).currentToken from hl)
    (show (register_decl c).currentToken.type = .identifier from hid) t1
  have ha2 := adj_lex_nonident h2 (lex_histCur h1) (by rw [t1]; decide)
  have ha3 := adj_lex_nonident h3 (lex_histCur h2) (by rw [t2]; decide)
  have ha4 := adj_lex_nonident h4 (lex_histCur h3) (by rw [t3]; decide)
  have ha5 := adj_lex_nonident h5 (lex_histCur h4) (by rw [t4]; decide)
  have ha6 := adj_lex_nonident h6 (lex_histCur h5) (by rw [t5]; decide)
  have hcall6 : call_idents c6.history = call_idents c.history := by
    rw [ha6.2, ha5.2, ha4.2, ha3.2, ha2.2, ha1.2]
    rfl
  obtain ⟨_, hp2, _⟩ := parse_header_pres hph
  simp only [PResult.state] at hp2
  obtain ⟨pd, hpd1, hpd2⟩ := find_or_create_entry c.procedures c.currentToken.lexeme
  have hc6i : c6.procedures[(find_or_create c.procedures c.currentToken.lexeme).1]? =
      some pd := by
    rw [hp2]
    exact hpd1
  have hc7i : (clear_calls c6.procedures
      (find_or_create c.procedures c.currentToken.lexeme).1)[(find_or_create c.procedures
        c.currentToken.lexeme).1]? = some { pd with calls := [] } :=
    clear_calls_at _ hc6i
  have hc7len : (find_or_create c.procedures c.currentToken.lexeme).1 <
      (clear_calls c6.procedures
        (find_or_create c.procedures c.currentToken.lexeme).1).length := by
    rw [clear_calls_length, hp2]
    exact (find_or_create_length _ _).2
  have hist7 := lex_histCur h6
  obtain ⟨blen, bnames, bhist, brb, bcalls⟩ := parse_body_calls fuel _ _ c8 hpb hist7 hc7len
  obtain ⟨newIdx, q, hq1, hq2, hq3, hq4⟩ := bcalls _ hc7i
  obtain ⟨_, lfp, _, _, _, _, _, _⟩ := lex_ok_spec hlex
  have haf := adj_lex_nonident hlex bhist (by rw [brb]; decide)
  have hcall8 : call_idents c8.history = call_idents c.history ++
      newIdx.map (proc_name_at c8.procedures) := by
    rw [hq4]
    have hcall7 : call_idents
        (clear_state c6 (find_or_create c.procedures c.currentToken.lexeme).1).history =
        call_idents c.history := by
      show call_idents c6.history = call_idents c.history
      exact hcall6
    rw [hcall7]
  have hcallf : call_idents c'.history = call_idents c.history ++
      newIdx.map (proc_name_at c8.procedures) := by
    rw [haf.2, hcall8]
  refine ⟨(find_or_create c.procedures c.currentToken.lexeme).1, ?_, ?_, q, ?_, ?_⟩
  · rw [lfp]
    have hb : (clear_calls c6.procedures
        (find_or_create c.procedures c.currentToken.lexeme).1).length ≤
        c8.procedures.length := blen
    omega
  · rw [lfp]
    rw [proc_name_at_eq hq1, hq2, hpd2]
  · rw [lfp]
    exact hq1
  · have hmap : q.calls.map (proc_name_at c'.procedures) =
        newIdx.map (proc_name_at c8.procedures) := by
      rw [hq3, lfp]
      rfl
    rw [hmap, hcallf, List.drop_left]

/-! ### Concrete-instance projections

Plain projections of the step functions, so that concrete instances can
name the resulting state without fixing its (large) literal value: on the
inputs used below each equation `f x = ... (f_result x) ...` holds by
computation. -/

/-- The state a successful or failed `lex` leaves behind. -/
def lex_result (c : Compiler) : Compiler :=
  match lex c with
  | .ok c' => c'
  | .err _ s => s

/-- The result of a whole `parse` run, defaulting to the initial state on
fuel exhaustion (which `parse_total` rules out). -/
def parse_result (src : List Char) : PResult :=
  (parse (compiler_new src)).getD (.ok (compiler_new src))

/-- The state a successful `parse_procedure` leaves behind. -/
def parse_proc_result (fuel : Nat) (c : Compiler) : Compiler :=
  match parse_procedure fuel c with
  | some (.ok c') => c'
  | _ => c

/-- The state a failed `parse_procedure` leaves behind. -/
def parse_proc_err_state (fuel : Nat) (c : Compiler) : Compiler :=
  match parse_procedure fuel c with
  | some (.err _ s) => s
  | _ => c

/-- The error data of a failed `parse_procedure`. -/
def parse_proc_err_data (fuel : Nat) (c : Compiler) : CompileError :=
  match parse_procedure fuel c with
  | some (.err e _) => e
  | _ => { row := 0, col := 0, kind := .unexpectedCharacter }

/-- The procedure table a whole compiler run builds (or the fatal error). -/
def parse_table (src : List Char) : Option (Except CompileError (List Procedure)) :=
  match parse (compiler_new src) with
  | none => none
  | some (.ok c) => some (.ok c.procedures)
  | some (.err e _) => some (.error e)

/-- The token kinds of a whole tokenization. -/
def token_kinds (src : List Char) : Option (Except CompileError (List TokenType)) :=
  (tokenize src).map (fun r => r.map (List.map Token.type))

/-- The kinds and positions (row, column) of a whole tokenization. -/
def token_positions (src : List Char) :
    Option (Except CompileError (List (TokenType × Nat × Nat))) :=
  (tokenize src).map (fun r => r.map (List.map (fun t => (t.type, t.row, t.col))))

/-! ### Last helper lemmas for the claims -/

/-- Any parse outcome, fatal or not, leaves a table with pairwise distinct
names: the table starts empty and every registration step preserves
distinctness. -/
theorem parse_names_nodup {src : List Char} {r : PResult}
    (h : parse (compiler_new src) = some r) :
    (names_of r.state.procedures).Nodup := by
  rw [parse] at h
  cases hl : lex (compiler_new src) with
  | err e s =>
    rw [hl] at h
    simp only [parse_start] at h
    cases h
    simp only [PResult.state]
    rw [(lex_err_spec hl).2.1]
    exact List.nodup_nil
  | ok c1 =>
    rw [hl] at h
    simp only [parse_start] at h
    apply (parse_loop_names _ _ _ _ h).2.2
    rw [(lex_ok_spec hl).2.1]
    exact List.nodup_nil

/-- A valid arena index dereferences to one of the table names. -/
theorem proc_name_at_mem {procs : List Procedure} {j : Nat} (h : j < procs.length) :
    proc_name_at procs j ∈ names_of procs := by
  unfold proc_name_at
  rw [List.getD_eq_getElem?_getD, List.getElem?_eq_getElem h]
  exact List.mem_map_of_mem _ (List.getElem_mem h)

/-- The lines of the generated output are the structured lines plus the
trailing empty line after the final newline. -/
theorem split_lines_generate {procs : List Procedure}
    (hv : ∀ p ∈ procs, valid_ident p.name) :
    split_lines (generate_code procs) = asm_lines procs ++ [[]] := by
  rw [generate_code_unlines]
  exact split_lines_unlines _ (asm_lines_no_newline hv)

/-- Every call-list entry of every table entry contributes its call
instruction line to the output. -/
theorem call_line_mem {procs : List Procedure} {p : Procedure} {j : Nat}
    (hp : p ∈ procs) (hj : j ∈ p.calls) :
    "    call ".data ++ proc_name_at procs j ∈ asm_lines procs := by
  unfold asm_lines
  refine List.mem_append_left _ (List.mem_append_right _ ?_)
  refine List.mem_flatten.2 ⟨proc_block_lines procs p, List.mem_map_of_mem _ hp, ?_⟩
  unfold proc_block_lines
  exact List.mem_append_left _ (List.mem_append_right _ (List.mem_map_of_mem _ hj))

/-! ### The claims -/

/-- C3: for every completed procedure table, the generated assembly is
exactly the line sequence `global _start`, blank, `section .text`, blank,
then per table entry in order its label line, `push rbp`, `mov rbp, rsp`,
one `call <callee>` line per call-list entry in call-list order, `mov rsp,
rbp`, `pop rbp`, `ret` and a blank line, and finally the fixed `_start:`
block `call main`, `mov rax, 60`, `xor rdi, rdi`, `syscall`, each line
terminated by a newline. -/
theorem generated_assembly_structure (procs : List Procedure) :
    generate_code procs = unlines
      (["global _start".data, [], "section .text".data, []] ++
       (procs.map (fun p =>
         [p.name ++ [':'], "    push rbp".data, "    mov rbp, rsp".data] ++
         p.calls.map (fun j => "    call ".data ++ proc_name_at procs j) ++
         ["    mov rsp, rbp".data, "    pop rbp".data, "    ret".data, []])).flatten ++
       ["_start:".data, "    call main".data, "    mov rax, 60".data,
        "    xor rdi, rdi".data, "    syscall".data]) :=
  generate_code_unlines procs

/-- C5: parsing `main :: proc () \x7b helper() \x7d` succeeds and yields a
table of exactly the two procedures `main` and `helper` in that order;
`helper` has an empty call list and `main` calls exactly the arena entry
of `helper` (index 1), once. -/
theorem parse_main_helper_table :
    parse_table "main :: proc () \x7b helper() \x7d".data =
      some (.ok [{ name := "main".data, calls := [1] },
        { name := "helper".data, calls := [] }]) :=
  rfl

/-- C6: once `lex` has produced an end-of-input token, any number of
further `lex` calls succeed and keep producing end-of-input tokens with an
empty lexeme at the unchanged cursor position, with the cursor still
resting on the terminator (no read past the buffer). -/
theorem lex_idempotent_at_eof {c c' : Compiler} (h : lex c = .ok c')
    (he : c'.currentToken.type = .eofToken) (n : Nat) :
    ∃ c'', lex_iter n c' = .ok c'' ∧
      c''.currentToken.type = .eofToken ∧
      c''.currentToken.lexeme = [] ∧
      c''.currentToken.row = c''.cursor.row ∧
      c''.currentToken.col = c''.cursor.col ∧
      c''.cursor = c'.cursor ∧ c''.content = c'.content ∧
      cursor_is_at_end c''.cursor c''.content = true := by
  obtain ⟨c'', hi, hA, hcur, hcon⟩ := lex_iter_eof n (lex_ok_eof_state h he)
  exact ⟨c'', hi, hA.2.1, hA.2.2.1, hA.2.2.2.1, hA.2.2.2.2, hcur, hcon, hA.1⟩

theorem lex_idempotent_at_eof_witness :
    lex (compiler_new []) = .ok (lex_result (compiler_new [])) ∧
    (lex_result (compiler_new [])).currentToken.type = .eofToken ∧
    ∃ c'', lex_iter 5 (lex_result (compiler_new [])) = .ok c'' ∧
      c''.currentToken.type = .eofToken ∧
      c''.currentToken.lexeme = [] ∧
      c''.currentToken.row = c''.cursor.row ∧
      c''.currentToken.col = c''.cursor.col ∧
      c''.cursor = (lex_result (compiler_new [])).cursor ∧
      c''.content = (lex_result (compiler_new [])).content ∧
      cursor_is_at_end c''.cursor c''.content = true :=
  ⟨rfl, rfl, @lex_idempotent_at_eof (compiler_new []) (lex_result (compiler_new [])) rfl rfl 5⟩

/-- C7 (amended): compiling the malformed input `foo :: (` fails with the
syntactic error Expected proc keyword, reported at line 1 column 9 — the
scanner position immediately after the offending `(` token, which itself
starts at column 8 — and no assembly text is produced. -/
theorem malformed_header_error :
    compile "foo :: (".data =
      some (.error { row := 1, col := 9, kind := .expectedProcKeyword }) :=
  rfl

/-- C7 counterexample to the stated position: tokenizing `foo :: (` places
the `(` token at line 1 column 8, while the reported error position is
line 1 column 9, so the error does not reference the position of the `(`
token but the cursor position one past it. -/
theorem malformed_header_error_position_counterexample :
    token_positions "foo :: (".data =
      some (.ok [(.identifier, 1, 1), (.doubleColon, 1, 5), (.lparen, 1, 8),
        (.eofToken, 1, 9)]) ∧
    compile "foo :: (".data =
      some (.error { row := 1, col := 9, kind := .expectedProcKeyword }) :=
  ⟨rfl, rfl⟩

/-- C10: whenever `parse_procedure` raises a fatal error while the current
token on entry was an identifier (the declaration's name token), the table
of the error state already contains an entry under that name: registration
happens before header validation, so a failed declaration still mutates
the table. -/
theorem failed_header_leaves_registration {fuel : Nat} {c s : Compiler} {e : CompileError}
    (h : parse_procedure fuel c = some (.err e s))
    (hid : c.currentToken.type = .identifier) :
    c.currentToken.lexeme ∈ names_of s.procedures :=
  (parse_procedure_names h).2.2.2 hid

theorem failed_header_leaves_registration_witness :
    parse_procedure 10 (lex_result (compiler_new "foo :: (".data)) =
      some (.err (parse_proc_err_data 10 (lex_result (compiler_new "foo :: (".data)))
        (parse_proc_err_state 10 (lex_result (compiler_new "foo :: (".data)))) ∧
    (lex_result (compiler_new "foo :: (".data)).currentToken.type = .identifier ∧
    names_of (parse_proc_err_state 10 (lex_result (compiler_new "foo :: (".data))).procedures =
      ["foo".data] ∧
    (lex_result (compiler_new "foo :: (".data)).currentToken.lexeme ∈
      names_of (parse_proc_err_state 10
        (lex_result (compiler_new "foo :: (".data))).procedures :=
  ⟨rfl, rfl, rfl,
    @failed_header_leaves_registration 10 (lex_result (compiler_new "foo :: (".data))
      (parse_proc_err_state 10 (lex_result (compiler_new "foo :: (".data)))
      (parse_proc_err_data 10 (lex_result (compiler_new "foo :: (".data)))
      rfl rfl⟩

/-- C1 (amended): in every successfully parsed program, every call edge —
including one whose target is never the subject of a declaration — is
emitted as a call to a label that does exist in the generated assembly:
`find_or_create` registers call targets in the table and `generate_code`
emits a label block for every table entry, so a dangling call fails at
runtime (the callee body is empty), not at the assembler/linker step. -/
theorem dangling_calls_have_labels {src : List Char} {c' : Compiler}
    (h : parse (compiler_new src) = some (.ok c')) :
    ∀ p ∈ c'.procedures, ∀ j ∈ p.calls,
      proc_name_at c'.procedures j ∈ labels_of (generate_code c'.procedures) ∧
      "    call ".data ++ proc_name_at c'.procedures j ∈
        split_lines (generate_code c'.procedures) := by
  intro p hp j hj
  have hinv := parse_inv h
  have hjl : j < c'.procedures.length := hinv.callsWf p hp j hj
  constructor
  · rw [labels_of_generate hinv.validNames]
    exact List.mem_append_left _ (proc_name_at_mem hjl)
  · rw [split_lines_generate hinv.validNames]
    exact List.mem_append_left _ (call_line_mem hp hj)

/-- C1 counterexample to the claimed label absence: in
`main :: proc () \x7b helper() \x7d` the identifier `helper` is never the
subject of a declaration (the only declared identifier is `main`), yet the
generated assembly both defines the label `helper:` and emits the call
line, so the emitted call targets a label that does exist in the output. -/
theorem dangling_call_label_exists :
    parse_table "main :: proc () \x7b helper() \x7d".data =
      some (.ok [{ name := "main".data, calls := [1] },
        { name := "helper".data, calls := [] }]) ∧
    declared_idents
        (parse_result "main :: proc () \x7b helper() \x7d".data).state.history =
      ["main".data] ∧
    "helper".data ∈ labels_of (generate_code
      [{ name := "main".data, calls := [1] }, { name := "helper".data, calls := [] }]) ∧
    "    call helper".data ∈ split_lines (generate_code
      [{ name := "main".data, calls := [1] }, { name := "helper".data, calls := [] }]) :=
  ⟨rfl, rfl, by decide, by decide⟩

theorem dangling_calls_have_labels_witness :
    parse (compiler_new "main :: proc () \x7b helper() \x7d".data) =
      some (.ok (parse_result "main :: proc () \x7b helper() \x7d".data).state) ∧
    Procedure.mk "main".data [1] ∈
      (parse_result "main :: proc () \x7b helper() \x7d".data).state.procedures ∧
    1 ∈ (Procedure.mk "main".data [1]).calls ∧
    (proc_name_at
        (parse_result "main :: proc () \x7b helper() \x7d".data).state.procedures 1 ∈
      labels_of (generate_code
        (parse_result "main :: proc () \x7b helper() \x7d".data).state.procedures) ∧
    "    call ".data ++ proc_name_at
        (parse_result "main :: proc () \x7b helper() \x7d".data).state.procedures 1 ∈
      split_lines (generate_code
        (parse_result "main :: proc () \x7b helper() \x7d".data).state.procedures)) :=
  ⟨rfl, by decide, by decide,
    @dangling_calls_have_labels "main :: proc () \x7b helper() \x7d".data
      (parse_result "main :: proc () \x7b helper() \x7d".data).state rfl
      (Procedure.mk "main".data [1]) (by decide) 1 (by decide)⟩

/-- C2: after every successful parse, the label set of the generated
assembly is the table's name list plus `_start`, and the table names are
exactly the identifiers of the source that occur as a declared name or as
a call target. -/
theorem label_set_round_trip {src : List Char} {c' : Compiler}
    (h : parse (compiler_new src) = some (.ok c')) :
    labels_of (generate_code c'.procedures) = names_of c'.procedures ++ ["_start".data] ∧
    ∀ x, x ∈ names_of c'.procedures ↔
      (x ∈ declared_idents c'.history ∨ x ∈ call_idents c'.history) := by
  have hinv := parse_inv h
  exact ⟨labels_of_generate hinv.validNames, hinv.tableNames⟩

theorem label_set_round_trip_witness :
    parse (compiler_new "a :: proc () \x7b \x7d".data) =
      some (.ok (parse_result "a :: proc () \x7b \x7d".data).state) ∧
    (labels_of (generate_code
        (parse_result "a :: proc () \x7b \x7d".data).state.procedures) =
      names_of (parse_result "a :: proc () \x7b \x7d".data).state.procedures ++
        ["_start".data] ∧
    ∀ x, x ∈ names_of (parse_result "a :: proc () \x7b \x7d".data).state.procedures ↔
      (x ∈ declared_idents (parse_result "a :: proc () \x7b \x7d".data).state.history ∨
        x ∈ call_idents (parse_result "a :: proc () \x7b \x7d".data).state.history)) :=
  ⟨rfl, @label_set_round_trip "a :: proc () \x7b \x7d".data
    (parse_result "a :: proc () \x7b \x7d".data).state rfl⟩

/-- C4: a successful `parse_procedure` run on a declaration leaves the
declared name's table entry holding exactly the call targets read from
this declaration's body, in order — whatever call list the entry held
before (from an earlier declaration of the same name) is discarded, not
appended to. -/
theorem redeclaration_replaces_calls {fuel : Nat} {c c' : Compiler}
    (h : parse_procedure fuel c = some (.ok c'))
    (hl : c.history.getLast? = some c.currentToken) :
    ∃ i, i < c'.procedures.length ∧
      proc_name_at c'.procedures i = c.currentToken.lexeme ∧
      ∃ q, c'.procedures[i]? = some q ∧
        q.calls.map (proc_name_at c'.procedures) =
          (call_idents c'.history).drop (call_idents c.history).length :=
  parse_procedure_calls h hl

/-- A mid-parse state about to re-parse a declaration of `f`: the table
already holds `f` with one call to the entry of `a`, and the remaining
input declares `f` again with a body calling only `b`. -/
def redecl_state : Compiler :=
  Compiler.mk "f :: proc () \x7b b() \x7d".data
    (Cursor.mk 1 2 1 0)
    (Token.mk .identifier "f".data 1 1 0 0 1)
    [Procedure.mk "f".data [1], Procedure.mk "a".data []]
    [Token.mk .identifier "a".data 0 0 0 0 0,
      Token.mk .lparen "(".data 0 0 0 0 0,
      Token.mk .identifier "f".data 1 1 0 0 1]

theorem redeclaration_replaces_calls_witness :
    parse_procedure 30 redecl_state = some (.ok (parse_proc_result 30 redecl_state)) ∧
    redecl_state.history.getLast? = some redecl_state.currentToken ∧
    (parse_proc_result 30 redecl_state).procedures =
      [{ name := "f".data, calls := [2] }, { name := "a".data, calls := [] },
        { name := "b".data, calls := [] }] ∧
    ∃ i, i < (parse_proc_result 30 redecl_state).procedures.length ∧
      proc_name_at (parse_proc_result 30 redecl_state).procedures i =
        redecl_state.currentToken.lexeme ∧
      ∃ q, (parse_proc_result 30 redecl_state).procedures[i]? = some q ∧
        q.calls.map (proc_name_at (parse_proc_result 30 redecl_state).procedures) =
          (call_idents (parse_proc_result 30 redecl_state).history).drop
            (call_idents redecl_state.history).length :=
  ⟨rfl, rfl, rfl,
    @redeclaration_replaces_calls 30 redecl_state (parse_proc_result 30 redecl_state)
      rfl rfl⟩

/-- C8: every parse outcome, fatal or not, leaves a table with at most one
entry per distinct name, and on such a table a successful lookup by name
is the unique entry bearing that name, so two lookups with the same name
string always reach the same arena entry. -/
theorem table_names_unique {src : List Char} {r : PResult}
    (h : parse (compiler_new src) = some r) :
    (names_of r.state.procedures).Nodup ∧
    ∀ n i, find_procedure r.state.procedures n = some i →
      ∀ j p, r.state.procedures[j]? = some p → p.name = n → j = i := by
  have hnd := parse_names_nodup h
  exact ⟨hnd, fun n i hf => find_procedure_unique hnd hf⟩

theorem table_names_unique_witness :
    parse (compiler_new "main :: proc () \x7b helper() \x7d".data) =
      some (parse_result "main :: proc () \x7b helper() \x7d".data) ∧
    ((names_of
        (parse_result "main :: proc () \x7b helper() \x7d".data).state.procedures).Nodup ∧
    ∀ n i, find_procedure
        (parse_result "main :: proc () \x7b helper() \x7d".data).state.procedures n =
          some i →
      ∀ j p, (parse_result
          "main :: proc () \x7b helper() \x7d".data).state.procedures[j]? = some p →
        p.name = n → j = i) :=
  ⟨rfl, @table_names_unique "main :: proc () \x7b helper() \x7d".data
    (parse_result "main :: proc () \x7b helper() \x7d".data) rfl⟩

/-- C9: tokenizing any source by repeated `lex` terminates within the
proved fuel bound; every `lex` step that does not produce the end-of-input
token strictly advances the cursor point (the no-infinite-loop argument);
and on `main :: proc () \x7b helper() \x7d` the token kinds are exactly
the hand tokenization identifier, `::`, `proc`, `(`, `)`, `\x7b`,
identifier, `(`, `)`, `\x7d`, end-of-input. -/
theorem lexing_terminates_and_tokenizes (source : List Char) :
    (tokenize source).isSome ∧
    (∀ c c', lex c = .ok c' → c'.currentToken.type ≠ .eofToken →
      c.cursor.point < c'.cursor.point) ∧
    token_kinds "main :: proc () \x7b helper() \x7d".data =
      some (.ok [.identifier, .doubleColon, .procKeyword, .lparen, .rparen, .lbrace,
        .identifier, .lparen, .rparen, .rbrace, .eofToken]) :=
  ⟨tokenize_total source, fun c c' hl => (lex_ok_spec hl).2.2.2.2.2.1, rfl⟩

theorem lexing_terminates_and_tokenizes_witness :
    (tokenize "a b".data).isSome ∧
    lex (compiler_new "a b".data) = .ok (lex_result (compiler_new "a b".data)) ∧
    (lex_result (compiler_new "a b".data)).currentToken.type ≠ .eofToken ∧
    (compiler_new "a b".data).cursor.point <
      (lex_result (compiler_new "a b".data)).cursor.point :=
  ⟨(lexing_terminates_and_tokenizes "a b".data).1, rfl, by decide,
    (lexing_terminates_and_tokenizes "a b".data).2.1 (compiler_new "a b".data)
      (lex_result (compiler_new "a b".data)) rfl (by decide)⟩

end Imp
